import Mathlib

/-!
Verification of the Rummikub AI engine (RummikubAIHelper, RummikubPlayer,
RummikubGreedyAI, RummikubMCTSAI, RummikubGameManager) against its
natural-language specification.

Tiles are Python tuples `(color, number, is_joker)`; colors are the strings
appearing in the program, modelled by the inductive `Color`.  Python `None`
values are `Option.none`; functions that can raise an exception return an
`Option` (with `none` for the raised exception) or an `Except`.
-/

namespace Rummikub

inductive Color where
  | green | blue | yellow | red | joker | purple
deriving DecidableEq, Repr

structure Tile where
  color : Color
  value : Option Int
  isJoker : Bool
deriving DecidableEq, Repr

/-- `{tile[0] for tile in tiles if tile[0] != "purple"}` as a dedup'd list;
its length is the size of the Python set. -/
def nonPurpleColors (tiles : List Tile) : List Color :=
  ((tiles.filter (fun t => t.color ≠ Color.purple)).map Tile.color).dedup

/-- `[tile[1] for tile in tiles if tile[1] is not None]`. -/
def runNumbers (tiles : List Tile) : List Int :=
  tiles.filterMap Tile.value

/-- `sum(1 for tile in tiles if tile[0] == "purple")`. -/
def purpleCount (tiles : List Tile) : Nat :=
  (tiles.filter (fun t => t.color = Color.purple)).length

/-- The walk in `is_valid_run`: `expected_number` starts at the head value and
is incremented each step; a mismatching value consumes a joker or fails. -/
def runWalk : List Int → Int → Nat → Bool
  | [], _, _ => true
  | n :: rest, expected, jokers =>
    if n ≠ expected then
      if 0 < jokers then runWalk rest (expected + 1) (jokers - 1) else false
    else runWalk rest (expected + 1) jokers

/-- `RummikubAIHelper.is_valid_run`.  Returns `none` where Python raises
`IndexError` (`numbers[0]` on an empty `numbers`). -/
def is_valid_run (tiles : List Tile) : Option Bool :=
  if 1 < (nonPurpleColors tiles).length then some false
  else if (runNumbers tiles).length + purpleCount tiles < 3 then some false
  else
    match runNumbers tiles with
    | [] => none
    | n0 :: rest => some (runWalk (n0 :: rest) n0 (purpleCount tiles))

/-- `RummikubAIHelper.is_valid_group`.  `numbers` is the set of ALL tile
values (a joker contributes `None`), `colors` the set of non-purple colors. -/
def is_valid_group (tiles : List Tile) : Bool :=
  if tiles.length < 3 then false
  else if ((tiles.map Tile.value).dedup.length ≠ 1) ∨
      ((nonPurpleColors tiles).length ≠ tiles.length - purpleCount tiles) then false
  else true

/-! ### A stable insertion sort standing in for Python's stable `sorted` -/

def insertLe {α : Type} (le : α → α → Bool) (a : α) : List α → List α
  | [] => [a]
  | b :: l => if le a b then a :: b :: l else b :: insertLe le a l

/-- Stable sort: an element is inserted before the first element it compares
`le` to, so elements with equal keys keep their original relative order —
the behaviour of Python's `sorted`. -/
def pySort {α : Type} (le : α → α → Bool) : List α → List α
  | [] => []
  | a :: l => insertLe le a (pySort le l)

def sortInt (l : List Int) : List Int := pySort (fun a b => a ≤ b) l

/-- The gap scan in `determine_joker_value`: first adjacent gap `> 1` in the
sorted values. -/
def gapScan : List Int → Option Int
  | a :: b :: rest => if 1 < b - a then some (a + 1) else gapScan (b :: rest)
  | _ => none

/-- `RummikubAIHelper.determine_joker_value`.  Returns `none` where Python
raises `IndexError` (`numbers[0]`/`numbers[-1]` on an empty list, or
`tiles[0]` on an empty meld). -/
def determine_joker_value (tiles : List Tile) : Option Int :=
  if tiles.length = 1 then some 0
  else
    match runNumbers tiles with
    | [] => none
    | n :: _ =>
      if (runNumbers tiles).dedup.length = 1 then some n
      else
        match sortInt (runNumbers tiles) with
        | [] => none
        | a :: rest =>
          match gapScan (a :: rest) with
          | some v => some v
          | none =>
            if (tiles.headD ⟨Color.red, none, false⟩).isJoker then some (a - 1)
            else some ((a :: rest).getLast (by simp) + 1)

/-- `RummikubAIHelper.calculate_points`: jokers score `determine_joker_value`;
`none` when that raises or when a non-joker tile has value `None`
(Python: `None + int` raises `TypeError`). -/
def calculate_points (tiles : List Tile) : Option Int := do
  let jv ← determine_joker_value tiles
  let vals ← tiles.mapM (fun t => if t.isJoker then some jv else t.value)
  return vals.sum

/-! ### Further definitions used by the claim statements -/

/-- Number of positions where the run walk's expected value is missed,
walking with expected value `e` that increments at each step. -/
def mismCount : Int → List Int → Nat
  | _, [] => 0
  | e, n :: rest => (if n ≠ e then 1 else 0) + mismCount (e + 1) rest

/-- Mismatch count of a value list against the arithmetic progression
starting at its own head (as an indexed count). -/
def mismatchesFrom (ns : List Int) : Nat :=
  match ns with
  | [] => 0
  | n0 :: _ => ns.enum.countP (fun p => decide (p.2 ≠ n0 + (p.1 : Int)))

/-- The amended description of `is_valid_run`: at most one distinct
non-purple color, at least three tiles counting purple jokers, and the
values — in the order given, not sorted — miss the progression
`values[0], values[0]+1, …` at no more positions than there are purple
jokers; a list with no numbered value (reachable only with ≥ 3 purple
jokers) raises `IndexError`. -/
def runAmendedSpec (tiles : List Tile) : Option Bool :=
  if 1 < (nonPurpleColors tiles).length then some false
  else if (runNumbers tiles).length + purpleCount tiles < 3 then some false
  else if runNumbers tiles = [] then none
  else some (decide (mismatchesFrom (runNumbers tiles) ≤ purpleCount tiles))

/-- Jokers needed to fill the internal gaps of an ascending value list;
`none` if a duplicate or descent makes filling impossible. -/
def gapsNeed : List Int → Option Nat
  | a :: b :: rest =>
    if b ≤ a then none
    else (gapsNeed (b :: rest)).map (fun g => g + (b - a - 1).toNat)
  | _ => some 0

/-- The run predicate exactly as claim C1 words it: ≥ 3 tiles (jokers
counted), all non-joker tiles share one color, and the non-joker values in
sorted ascending order, with jokers consumed to fill the missing values,
form one consecutive sequence staying within 1..13. -/
def claimRunSpec (tiles : List Tile) : Bool :=
  let nonJokers := tiles.filter (fun t => !t.isJoker)
  let jokers := tiles.length - nonJokers.length
  let vals := sortInt (nonJokers.filterMap Tile.value)
  decide (3 ≤ tiles.length) &&
  decide ((nonJokers.map Tile.color).dedup.length ≤ 1) &&
  (match gapsNeed vals with
   | some g => decide (g ≤ jokers)
   | none => false) &&
  vals.all (fun v => decide (1 ≤ v) && decide (v ≤ 13))

/-- The group predicate exactly as claim C2 words it: 3 ≤ |T| ≤ 4, all
non-joker tiles share exactly one value, and distinct non-joker colors plus
jokers account for every tile. -/
def claimGroupSpec (tiles : List Tile) : Bool :=
  let nonJokers := tiles.filter (fun t => !t.isJoker)
  let jokers := tiles.length - nonJokers.length
  decide (3 ≤ tiles.length) && decide (tiles.length ≤ 4) &&
  decide ((nonJokers.map Tile.value).dedup.length = 1) &&
  decide ((nonJokers.map Tile.color).dedup.length + jokers = tiles.length)

/-- The amended description of `is_valid_group`: at least three tiles (no
upper bound of four is enforced), every tile's value — a joker's `None`
included — is the same, and the non-purple colors are pairwise distinct. -/
def groupAmendedSpec (tiles : List Tile) : Prop :=
  3 ≤ tiles.length ∧
  (∀ t1 ∈ tiles, ∀ t2 ∈ tiles, t1.value = t2.value) ∧
  ((tiles.filter (fun t => t.color ≠ Color.purple)).map Tile.color).Nodup

/-- The amended description of `determine_joker_value`: 0 for a single
tile; `IndexError` for a longer meld with no numbered tile; the shared
value when all (sorted) numbered values are equal; otherwise the filler of
the earliest sorted gap > 1, or `min - 1`/`max + 1` according to whether
the meld's first tile is a joker. -/
def djvAmendedSpec (tiles : List Tile) : Option Int :=
  if tiles.length = 1 then some 0
  else
    match sortInt (runNumbers tiles) with
    | [] => none
    | v :: rest =>
      if rest.all (fun x => x = v) then some v
      else
        match ((v :: rest).zip rest).find? (fun p => decide (1 < p.2 - p.1)) with
        | some p => some (p.1 + 1)
        | none =>
          if (tiles.headD ⟨Color.red, none, false⟩).isJoker then some (v - 1)
          else some ((v :: rest).getLast (by simp) + 1)

/-! ### Concrete tiles used by counterexamples and witnesses -/

def rT (v : Int) : Tile := ⟨Color.red, some v, false⟩
def bT (v : Int) : Tile := ⟨Color.blue, some v, false⟩
def gT (v : Int) : Tile := ⟨Color.green, some v, false⟩
def yT (v : Int) : Tile := ⟨Color.yellow, some v, false⟩
def jokerT : Tile := ⟨Color.joker, none, true⟩
def purpleJ : Tile := ⟨Color.purple, none, true⟩

/-! ### find_valid_sets, find_tiles_for_30_points, play_turn (initial meld) -/

/-- `itertools.combinations`: the k-element subsequences, first-element
combinations before the rest, as itertools enumerates them. -/
def combos {α : Type} : Nat → List α → List (List α)
  | 0, _ => [[]]
  | _ + 1, [] => []
  | k + 1, a :: rest => (combos k rest).map (fun c => a :: c) ++ combos (k + 1) rest

/-- `RummikubAIHelper.find_valid_groups`: 3-combinations with three distinct
colors, plus the whole four-tile set when its four colors are distinct. -/
def find_valid_groups (snt : List Tile) : List (List Tile) :=
  if 3 ≤ snt.length then
    (combos 3 snt).filter (fun c => (c.map Tile.color).dedup.length = 3) ++
    (if snt.length = 4 ∧ (snt.map Tile.color).dedup.length = 4 then [snt] else [])
  else []

/-- `all(run[k][1] == run[k-1][1] + 1 for k in range(1, len(run)))`. -/
def consecutiveB : List Tile → Bool
  | a :: b :: rest =>
    (match a.value, b.value with
     | some x, some y => decide (y = x + 1)
     | _, _ => false) && consecutiveB (b :: rest)
  | _ => true

/-- Python's `sorted(..., key=lambda x: x[1])` comparison (the call sites
sort only tiles whose value is present, so the default is never compared). -/
def tileLeByValue (a b : Tile) : Bool := a.value.getD 0 ≤ b.value.getD 0

/-- `RummikubAIHelper.find_valid_runs`: for each real color, every ascending
slice `[i : j+1]`, `i+2 ≤ j < len`, of the value-sorted same-color tiles
that is consecutive. -/
def find_valid_runs (tiles : List Tile) : List (List Tile) :=
  [Color.green, Color.blue, Color.yellow, Color.red].flatMap (fun c =>
    let sct := pySort tileLeByValue (tiles.filter (fun t => t.color = c))
    (List.range (sct.length - 2)).flatMap (fun i =>
      (List.range' (i + 2) (sct.length - (i + 2))).filterMap (fun j =>
        let run := (sct.drop i).take (j + 1 - i)
        if consecutiveB run then some run else none)))

/-- `RummikubAIHelper.find_valid_sets`: groups for each number 1..13, then
runs, over the tiles of the hand that carry a number. -/
def find_valid_sets (player_tiles : List Tile) : List (List Tile) :=
  let tiles := player_tiles.filter (fun t => t.value.isSome)
  ((List.range 13).flatMap (fun k =>
    find_valid_groups (tiles.filter (fun t => t.value = some ((k : Int) + 1))))) ++
  find_valid_runs tiles

/-- The sorting key of `find_tiles_for_30_points` (`calculate_points`); the
melds produced by `find_valid_sets` carry no `None` value, so
`determine_joker_value` never raises there and the default is never read
(lemma `meldOK_calculate_points` below). -/
def pointsKey (m : List Tile) : Int := (calculate_points m).getD 0

/-- `valid_sets.sort(key=calculate_points, reverse=True)` — stable
descending sort. -/
def sortDescByPoints (l : List (List Tile)) : List (List Tile) :=
  pySort (fun a b => pointsKey b ≤ pointsKey a) l

/-- The greedy packing loop of `find_tiles_for_30_points`: stop at 30
points, skip a set intersecting the used tiles, otherwise take it. -/
def greedyPack : List (List Tile) → List Tile → List (List Tile) → Int →
    (List (List Tile) × Int)
  | [], _, acc, tot => (acc, tot)
  | m :: rest, used, acc, tot =>
    if 30 ≤ tot then (acc, tot)
    else if m.any (fun t => t ∈ used) then greedyPack rest used acc tot
    else greedyPack rest (used ++ m) (acc ++ [m]) (tot + pointsKey m)

/-- `RummikubAIHelper.find_tiles_for_30_points`. -/
def find_tiles_for_30_points (player_tiles : List Tile) :
    Option (List (List Tile)) :=
  let packed := greedyPack (sortDescByPoints (find_valid_sets player_tiles)) [] [] 0
  if 30 ≤ packed.2 then some packed.1 else none

/-- The pre-initial-meld branch of `RummikubPlayer.play_turn`
(`has_made_initial_meld` false): every found meld is appended to the board,
but only the FIRST meld's tiles are removed from the hand.  (`List.erase`
is silent where Python's `remove` would raise; the erased tiles always come
from the hand here.) -/
def play_turn_no_meld (board_tiles : List (List Tile)) (player_tiles : List Tile) :
    Option (List (List Tile) × List Tile) :=
  if player_tiles = [] then none
  else
    match find_tiles_for_30_points player_tiles with
    | some melds =>
      if melds = [] then none  -- an empty list is falsy: the AI draws
      else
        some (board_tiles ++ melds,
          (melds.headD []).foldl (fun h t => h.erase t) player_tiles)
    | none => none

def boardTileCount (board : List (List Tile)) : Nat := (board.map List.length).sum

/-- `RummikubGameManager.create_tile_pool` (before the shuffle, which does
not change the count): two copies of each of 4 colors × 13 numbers, plus
two jokers. -/
def create_tile_pool : List Tile :=
  ([Color.green, Color.blue, Color.yellow, Color.red].flatMap (fun c =>
    (List.range 13).flatMap (fun k =>
      [⟨c, some ((k : Int) + 1), false⟩, ⟨c, some ((k : Int) + 1), false⟩]))) ++
  [jokerT, jokerT]

/-! ### The hand's worth over disjoint melds, for claim C6 -/

/-- Whether a sub-multiset of the hand can be laid as a meld of ≥ 3 tiles:
its value-sorted arrangement passes the run validator, or it passes the
group validator. -/
def meldable (m : List Tile) : Bool :=
  decide (3 ≤ m.length) &&
  (decide (is_valid_run (pySort tileLeByValue m) = some true) || is_valid_group m)

/-- Best total point value over families of pairwise-disjoint melds drawn
from `s` — the claim's "hand worth across all disjoint melds".  `fuel`
bounds the recursion; it is instantiated with `s.length`. -/
def bw : Nat → List Tile → Int
  | 0, _ => 0
  | fuel + 1, s =>
    (s.sublists.filter meldable).foldl
      (fun acc m => max acc (pointsKey (pySort tileLeByValue m) + bw fuel (s.diff m))) 0

def bestWorth (hand : List Tile) : Int := bw hand.length hand

/-- Shape of a run emitted by `find_valid_sets`. -/
def RunOK (m : List Tile) : Prop :=
  (∀ t ∈ m, t.value.isSome) ∧
  (runNumbers m).Chain' (fun x y => y = x + 1) ∧
  is_valid_run m = some true

/-- Shape of a group emitted by `find_valid_sets`. -/
def GroupOK (m : List Tile) : Prop :=
  (∃ v, ∀ t ∈ m, t.value = some v) ∧ is_valid_group m = true

/-- The properties shared by every meld `find_valid_sets` emits, relative
to the tile list it was drawn from. -/
def MeldOK (hand m : List Tile) : Prop :=
  (∀ t ∈ m, t ∈ hand) ∧ m.Nodup ∧ 3 ≤ m.length ∧ (RunOK m ∨ GroupOK m)

def PairwiseDisj (F : List (List Tile)) : Prop :=
  F.Pairwise (fun m1 m2 => ∀ t ∈ m1, t ∉ m2)

/-- The numeric sort key of a tile (`x[1]`; only compared on valued tiles). -/
def keyv (t : Tile) : Int := t.value.getD 0

/-! ### RummikubPlayer.get_all_moves and the Greedy strategy -/

/-- `defaultdict(list)` grouping: keys in first-appearance order, each
bucket in encounter order. -/
def addToGroup {κ : Type} [DecidableEq κ] (k : κ) (t : Tile) :
    List (κ × List Tile) → List (κ × List Tile)
  | [] => [(k, [t])]
  | (k', l) :: rest =>
    if k' = k then (k', l ++ [t]) :: rest else (k', l) :: addToGroup k t rest

def groupByKey {κ : Type} [DecidableEq κ] (key : Tile → κ) (tiles : List Tile) :
    List (κ × List Tile) :=
  tiles.foldl (fun acc t => addToGroup (key t) t acc) []

/-- The run-continuation test of `RummikubPlayer.generate_runs`:
`not run or tile[1] is None or run[-1][1] is None or tile[1] == run[-1][1]+1`. -/
def runStepOK (run : List Tile) (t : Tile) : Bool :=
  match run.getLast? with
  | none => true
  | some lastT =>
    t.value.isNone || lastT.value.isNone ||
      (match lastT.value, t.value with
       | some lv, some tv => decide (tv = lv + 1)
       | _, _ => false)

/-- One step of the run-building fold in `RummikubPlayer.generate_runs`. -/
def playerRunStep (st : List Tile × List (List Tile)) (t : Tile) :
    List Tile × List (List Tile) :=
  if runStepOK st.1 t then (st.1 ++ [t], st.2)
  else ([t], if 3 ≤ st.1.length then st.2 ++ [st.1] else st.2)

/-- `RummikubPlayer.generate_runs`: per color (jokers sort to the end with
key 100), build chains, keep chains of length ≥ 3, flush the last chain. -/
def generate_runs (grouped : List (Color × List Tile)) : List (List Tile) :=
  grouped.flatMap (fun g =>
    let sorted := pySort (fun a b => a.value.getD 100 ≤ b.value.getD 100) g.2
    let st := sorted.foldl playerRunStep ([], [])
    if 3 ≤ st.1.length then st.2 ++ [st.1] else st.2)

/-- The first tile of each distinct color, in encounter order
(`RummikubPlayer.generate_groups`' duplicate removal). -/
def firstPerColor (tiles : List Tile) : List Tile :=
  (tiles.foldl (fun (st : List Color × List Tile) t =>
    if t.color ∈ st.1 then st else (st.1 ++ [t.color], st.2 ++ [t])) ([], [])).2

/-- `RummikubPlayer.generate_groups`. -/
def generate_groups (grouped : List (Option Int × List Tile)) :
    List (List Tile) :=
  grouped.filterMap (fun g =>
    let uniq := firstPerColor g.2
    if 3 ≤ uniq.length then some uniq else none)

/-- `is_valid_group(g) or is_valid_run(g)` with Python's short-circuit;
`none` when the `or` falls through to a raising `is_valid_run`. -/
def validEither (g : List Tile) : Option Bool :=
  if is_valid_group g then some true else is_valid_run g

/-- `RummikubPlayer.get_all_moves_from_board`: try each hand tile at the
front and at the back of each board meld, keep results that re-validate,
dedup against the visited-state set.  `none` propagates a validator
IndexError. -/
def get_all_moves_from_board (board : List (List Tile)) (hand : List Tile) :
    Option (List (List (List Tile) × List Tile)) :=
  let cands := board.enum.flatMap (fun p =>
    hand.flatMap (fun t => [(p.1, t, t :: p.2), (p.1, t, p.2 ++ [t])]))
  let res : Option (List (List (List Tile) × List Tile) ×
      List (List (List Tile) × List Tile)) :=
    cands.foldlM
      (fun st (c : Nat × Tile × List Tile) => do
        let ok ← validEither c.2.2
        if ok then
          let mb := board.set c.1 c.2.2
          let mh := hand.filter (fun x => x ≠ c.2.1)
          if (mb, mh) ∈ st.1 then pure st
          else pure (st.1 ++ [(mb, mh)], st.2 ++ [(mb, mh)])
        else pure st)
      ([], [])
  res.map (fun st => st.2)

/-- `RummikubPlayer.get_all_moves`: board-extension moves first, then each
hand-only meld appended to the board with its tiles filtered from the
hand. -/
def get_all_moves (board : List (List Tile)) (hand : List Tile) :
    Option (List (List (List Tile) × List Tile)) :=
  (get_all_moves_from_board board hand).map (fun boardMoves =>
    boardMoves ++
      (generate_runs (groupByKey Tile.color hand) ++
        generate_groups (groupByKey Tile.value hand)).map
        (fun g => (board ++ [g], hand.filter (fun t => ¬ t ∈ g))))

/-- Sum of the numbered tile values of a meld — jokers contribute nothing —
as the Greedy scan computes `group_sum`. -/
def meldRawSum (g : List Tile) : Int := (runNumbers g).sum

/-- The running maximum of the Greedy scan
(`max_group_length`, `max_tile_sum`, `longest_group`/`best_move`). -/
structure GreedyScan where
  maxLen : Int
  maxSum : Int
  best : Option (List Tile × (List (List Tile) × List Tile))
deriving DecidableEq, Repr

def greedyScanStep (s : GreedyScan)
    (p : List Tile × (List (List Tile) × List Tile)) : GreedyScan :=
  if s.maxLen < (p.1.length : Int) ∨
      ((p.1.length : Int) = s.maxLen ∧ s.maxSum < meldRawSum p.1) then
    { maxLen := p.1.length, maxSum := meldRawSum p.1, best := some p }
  else s

/-- The (meld, move) pairs in the order `RummikubGreedyAI.AI_logic`'s
double loop visits them. -/
def greedyPairs (moves : List (List (List Tile) × List Tile)) :
    List (List Tile × (List (List Tile) × List Tile)) :=
  moves.flatMap (fun mv => mv.1.map (fun g => (g, mv)))

/-- `RummikubGreedyAI.AI_logic`.  Outer `none` is an exception (a validator
IndexError inside the generator, or the `best_move[1]` subscript when no
meld was scanned — unreachable for generator output); inner `none` is the
empty move list Python returns when no moves exist.  The `isinstance(tile,
list)` arm of the scan is dead for the generator's tile-level melds and is
not modelled. -/
def greedy_AI_logic (board : List (List Tile)) (hand : List Tile) :
    Option (Option (List (List Tile) × List Tile)) := do
  let moves ← get_all_moves board hand
  if moves = [] then pure none
  else
    match ((greedyPairs moves).foldl greedyScanStep ⟨-1, -1, none⟩).best with
    | some p => pure (some ([p.1], p.2.2))
    | none => none

/-- Lexicographic order on (length, value-sum) pairs. -/
def lexLE (p q : Int × Int) : Prop := p.1 < q.1 ∨ (p.1 = q.1 ∧ p.2 ≤ q.2)

/-! ### MCTSNode.best_child (C8) -/

/-- The per-child statistics `best_child` reads (`node.value`,
`node.visits`). -/
structure MChild where
  value : ℝ
  visits : Nat

/-- The UCB1 score
`node.value / node.visits + c · sqrt(2 · ln(parent.visits) / node.visits)`. -/
noncomputable def ucbScore (parentVisits : Nat) (c : ℝ) (ch : MChild) : ℝ :=
  ch.value / ch.visits + c * Real.sqrt (2 * Real.log parentVisits / ch.visits)

/-- Python's `max(children, key=f)`: the FIRST maximiser; `none` on an
empty list (where Python raises). -/
noncomputable def pyMax {α : Type} (f : α → ℝ) : List α → Option α
  | [] => none
  | a :: rest =>
    some (rest.foldl (fun best x => if f best < f x then x else best) a)

/-- `MCTSNode.best_child`: the passed exploration factor is OVERRIDDEN by
hand size — 0.5 when the node's hand has at most 3 tiles, 2.0 when it has
at least 10. -/
noncomputable def best_child (player_tiles : List Tile) (visits : Nat)
    (children : List MChild) (explorationFactor : ℝ) : Option MChild :=
  let c := if player_tiles.length ≤ 3 then (0.5 : ℝ)
    else if 10 ≤ player_tiles.length then (2.0 : ℝ)
    else explorationFactor
  pyMax (ucbScore visits c) children

/-- The final move choice of `MCTSPlayer.AI_logic`:
`best_child(exploration_factor=0)`. -/
noncomputable def mcts_final_choice (player_tiles : List Tile) (visits : Nat)
    (children : List MChild) : Option MChild :=
  best_child player_tiles visits children 0

/-! ### The Simulator's game-manager aliasing (C9) -/

inductive AIKind where
  | randomK | greedyK | mctsK
deriving DecidableEq, Repr

/-- The `RummikubGameManager` fields the simulator touches. -/
structure GMState where
  players : List AIKind
  tile_pool : List Tile
  players_tiles : List (List Tile)
  board_tiles : List (List Tile)
  current_player_idx : Nat
deriving DecidableEq, Repr

/-- `Simulator.prepare_simulator`: `simulator = game_manager` is an ALIAS —
no copy is made — so these mutations land on the live manager: the board is
replaced by the node's board, the current player's hand by the node's hand,
the turn index advances, and `init_players(['greedy', 'random'])` replaces
the real players.  The subsequent `ai_VS_ai` then also draws from the live
`tile_pool` and flips `game_over`. -/
def prepare_simulator (gm : GMState) (nodeBoard : List (List Tile))
    (nodeHand : List Tile) : GMState :=
  { gm with
    board_tiles := nodeBoard,
    players_tiles := gm.players_tiles.set gm.current_player_idx nodeHand,
    current_player_idx := (gm.current_player_idx + 1) % 2,
    players := [AIKind.greedyK, AIKind.randomK] }

/-- A live manager mid-game between two MCTS players, about to roll out. -/
def gm0 : GMState :=
  { players := [AIKind.mctsK, AIKind.mctsK], tile_pool := [yT 1, yT 2],
    players_tiles := [[rT 1], [bT 2]], board_tiles := [],
    current_player_idx := 0 }

/-! ### RummikubPlayer.get_move (C10) -/

/-- The move shapes a strategy's `AI_logic` can hand to `get_move`: nothing
(`None` or `[]`), a one-element list holding a tile, or a
`(new_board, new_hand)` pair. -/
inductive PyMove where
  | noMove
  | singleTile (t : Tile)
  | statePair (b : List (List Tile)) (h : List Tile)
deriving DecidableEq, Repr

inductive PyErr where
  | valueError
deriving DecidableEq, Repr

/-- `RummikubPlayer.get_move`, parametrised by the move `AI_logic`
returned.  Only the one-element-list branch checks membership: a missing
non-joker tile raises ValueError, a missing joker raises inside
`list.remove`; a state pair is installed wholesale with NO check.  (Python
appends to `board_tiles` before raising; the error return discards that
partial mutation.) -/
def get_move (move : PyMove) (board_tiles : List (List Tile))
    (player_tiles : List Tile) :
    Except PyErr (Bool × List (List Tile) × List Tile) :=
  match move with
  | PyMove.noMove => Except.ok (false, board_tiles, player_tiles)
  | PyMove.singleTile t =>
    let board' := board_tiles ++ [[t]]
    if t ∈ player_tiles then
      Except.ok (true, board', player_tiles.erase t)
    else if t.color = Color.joker then
      if jokerT ∈ player_tiles then
        Except.ok (true, board', player_tiles.erase jokerT)
      else Except.error PyErr.valueError
    else Except.error PyErr.valueError
  | PyMove.statePair b h => Except.ok (true, b, h)

/-! ### Properties of the stable insertion sort -/

theorem mem_insertLe {α : Type} (le : α → α → Bool) (a x : α) :
    ∀ l : List α, x ∈ insertLe le a l ↔ x = a ∨ x ∈ l := by
  intro l
  induction l with
  | nil => simp [insertLe]
  | cons b l ih =>
    simp only [insertLe]
    by_cases h : le a b = true
    · rw [if_pos h]
      simp [List.mem_cons]
    · rw [if_neg h]
      simp only [List.mem_cons, ih]
      tauto

theorem insertLe_perm {α : Type} (le : α → α → Bool) (a : α) :
    ∀ l : List α, (insertLe le a l).Perm (a :: l) := by
  intro l
  induction l with
  | nil => simp [insertLe]
  | cons b l ih =>
    simp only [insertLe]
    by_cases h : le a b = true
    · rw [if_pos h]
    · rw [if_neg h]
      exact (List.Perm.cons b ih).trans (List.Perm.swap a b l)

theorem pySort_perm {α : Type} (le : α → α → Bool) :
    ∀ l : List α, (pySort le l).Perm l := by
  intro l
  induction l with
  | nil => simp [pySort]
  | cons a l ih =>
    exact ((insertLe_perm le a (pySort le l)).trans (List.Perm.cons a ih))

theorem insertLe_pairwise {α : Type} (le : α → α → Bool)
    (htot : ∀ a b, le a b = true ∨ le b a = true)
    (htr : ∀ a b c, le a b = true → le b c = true → le a c = true)
    (a : α) : ∀ l : List α, l.Pairwise (fun x y => le x y = true) →
      (insertLe le a l).Pairwise (fun x y => le x y = true) := by
  intro l
  induction l with
  | nil => simp [insertLe]
  | cons b l ih =>
    intro hp
    rcases List.pairwise_cons.1 hp with ⟨hb, hl⟩
    simp only [insertLe]
    by_cases h : le a b = true
    · rw [if_pos h]
      refine List.pairwise_cons.2 ⟨?_, hp⟩
      intro x hx
      rcases List.mem_cons.1 hx with hx | hx
      · rw [hx]; exact h
      · exact htr a b x h (hb x hx)
    · rw [if_neg h]
      refine List.pairwise_cons.2 ⟨?_, ih hl⟩
      intro x hx
      rcases (mem_insertLe le a x l).1 hx with hx | hx
      · rw [hx]
        rcases htot a b with h' | h'
        · exact absurd h' h
        · exact h'
      · exact hb x hx

theorem pySort_pairwise {α : Type} (le : α → α → Bool)
    (htot : ∀ a b, le a b = true ∨ le b a = true)
    (htr : ∀ a b c, le a b = true → le b c = true → le a c = true) :
    ∀ l : List α, (pySort le l).Pairwise (fun x y => le x y = true) := by
  intro l
  induction l with
  | nil => simp [pySort]
  | cons a l ih => exact insertLe_pairwise le htot htr a (pySort le l) ih

theorem sortInt_perm (l : List Int) : (sortInt l).Perm l := pySort_perm _ l

theorem sortInt_sorted (l : List Int) : (sortInt l).Pairwise (· ≤ ·) := by
  have h := pySort_pairwise (α := Int) (fun a b => decide (a ≤ b))
    (by intro a b; rcases le_total a b with h | h <;> simp [h])
    (by intro a b c h1 h2; simp only [decide_eq_true_eq] at *; omega) l
  exact h.imp (by intro a b h; simpa using h)

/-! ### Generic dedup lemmas -/

theorem dedup_eq_single_of_all_eq {α : Type} [DecidableEq α] (a : α) :
    ∀ l : List α, l ≠ [] → (∀ x ∈ l, x = a) → l.dedup = [a] := by
  intro l
  induction l with
  | nil => intro h; exact absurd rfl h
  | cons b l ih =>
    intro _ hall
    have hb : b = a := hall b (by simp)
    subst hb
    rcases eq_or_ne l [] with rfl | hne
    · simp
    · have hmem : b ∈ l := by
        rcases List.exists_mem_of_ne_nil l hne with ⟨x, hx⟩
        have := hall x (by simp [hx])
        subst this; exact hx
      rw [List.dedup_cons_of_mem hmem]
      exact ih hne (fun x hx => hall x (by simp [hx]))

theorem dedup_length_eq_one_iff {α : Type} [DecidableEq α] (l : List α) :
    l.dedup.length = 1 ↔ l ≠ [] ∧ ∀ x ∈ l, ∀ y ∈ l, x = y := by
  constructor
  · intro h
    rcases List.length_eq_one.1 h with ⟨a, ha⟩
    have hmem : ∀ x ∈ l, x = a := by
      intro x hx
      have : x ∈ l.dedup := List.mem_dedup.2 hx
      rw [ha] at this; simpa using this
    refine ⟨?_, ?_⟩
    · intro hnil; rw [hnil] at ha; simp at ha
    · intro x hx y hy; rw [hmem x hx, hmem y hy]
  · rintro ⟨hne, hall⟩
    rcases List.exists_mem_of_ne_nil l hne with ⟨a, ha⟩
    rw [dedup_eq_single_of_all_eq a l hne (fun x hx => hall x hx a ha)]
    rfl

theorem dedup_length_eq_length_iff {α : Type} [DecidableEq α] (l : List α) :
    l.dedup.length = l.length ↔ l.Nodup := by
  constructor
  · intro h
    have := (List.dedup_sublist l).eq_of_length h
    rw [← this]; exact List.nodup_dedup l
  · intro h; rw [List.Nodup.dedup h]

theorem length_filter_add_length_filter_not {α : Type} (p : α → Bool) :
    ∀ l : List α, (l.filter p).length + (l.filter (fun x => !p x)).length = l.length := by
  intro l
  induction l with
  | nil => simp
  | cons a l ih =>
    by_cases h : p a <;> simp [List.filter_cons, h, ← ih] <;> omega

/-! ### The mismatch-count characterisation of the run walk -/

theorem runWalk_eq_mismCount :
    ∀ (ns : List Int) (e : Int) (j : Nat),
      runWalk ns e j = decide (mismCount e ns ≤ j) := by
  intro ns
  induction ns with
  | nil => intro e j; simp [runWalk, mismCount]
  | cons n rest ih =>
    intro e j
    by_cases h : n = e
    · subst h
      simp [runWalk, mismCount, ih]
    · have h2 : mismCount e (n :: rest) = 1 + mismCount (e + 1) rest := by
        simp [mismCount, h]
      by_cases hj : 0 < j
      · have h1 : runWalk (n :: rest) e j = runWalk rest (e + 1) (j - 1) := by
          simp [runWalk, h, hj]
        rw [h1, ih, h2, decide_eq_decide]
        omega
      · have h1 : runWalk (n :: rest) e j = false := by
          simp [runWalk, h, hj]
        rw [h1, h2]
        have hle : ¬ (1 + mismCount (e + 1) rest ≤ j) := by omega
        simp [hle]

theorem mismCount_enumFrom (n0 : Int) :
    ∀ (ns : List Int) (k : Nat),
      mismCount (n0 + (k : Int)) ns =
        (List.enumFrom k ns).countP (fun p => decide (p.2 ≠ n0 + (p.1 : Int))) := by
  intro ns
  induction ns with
  | nil => intro k; simp [mismCount]
  | cons n rest ih =>
    intro k
    have := ih (k + 1)
    simp only [mismCount, List.enumFrom_cons, List.countP_cons]
    rw [show (n0 + (k : Int)) + 1 = n0 + (((k + 1 : Nat) : Int)) by push_cast; ring, this]
    by_cases h : n = n0 + (k : Int)
    · simp [h]
    · simp [h]
      omega

theorem mismatchesFrom_cons (n0 : Int) (rest : List Int) :
    mismatchesFrom (n0 :: rest) = mismCount n0 (n0 :: rest) := by
  have h := mismCount_enumFrom n0 (n0 :: rest) 0
  simp only [Nat.cast_zero, add_zero] at h
  rw [mismatchesFrom, h]
  rfl

/-- C1: is_valid_run does not sort — it is equal to the amended,
order-sensitive characterisation. -/
theorem C1_run_amended (tiles : List Tile) :
    is_valid_run tiles = runAmendedSpec tiles := by
  unfold is_valid_run runAmendedSpec
  by_cases h1 : 1 < (nonPurpleColors tiles).length
  · rw [if_pos h1, if_pos h1]
  · rw [if_neg h1, if_neg h1]
    by_cases h2 : (runNumbers tiles).length + purpleCount tiles < 3
    · rw [if_pos h2, if_pos h2]
    · rw [if_neg h2, if_neg h2]
      cases hns : runNumbers tiles with
      | nil => simp
      | cons n0 rest =>
        rw [if_neg (by simp)]
        show some (runWalk (n0 :: rest) n0 (purpleCount tiles)) = _
        rw [runWalk_eq_mismCount, mismatchesFrom_cons]

/-- C1 counterexample: the unsorted run `[red 6, red 5, red 7]` satisfies
the claim's sorted-walk description but `is_valid_run` rejects it, and
`[red 1, red 13, red 3, purple]` fails the claim's description but
`is_valid_run` accepts it. -/
theorem C1_counterexample :
    (claimRunSpec [rT 6, rT 5, rT 7] = true ∧
      is_valid_run [rT 6, rT 5, rT 7] = some false) ∧
    (claimRunSpec [rT 1, rT 13, rT 3, purpleJ] = false ∧
      is_valid_run [rT 1, rT 13, rT 3, purpleJ] = some true) := by decide

/-! ### C2: is_valid_group -/

theorem values_dedup_one_iff (tiles : List Tile) :
    (tiles.map Tile.value).dedup.length = 1 ↔
      (tiles ≠ [] ∧ ∀ t1 ∈ tiles, ∀ t2 ∈ tiles, t1.value = t2.value) := by
  rw [dedup_length_eq_one_iff]
  constructor
  · rintro ⟨hne, hall⟩
    refine ⟨by simpa using hne, ?_⟩
    intro t1 h1 t2 h2
    exact hall _ (List.mem_map_of_mem Tile.value h1) _ (List.mem_map_of_mem Tile.value h2)
  · rintro ⟨hne, hall⟩
    refine ⟨by simpa using hne, ?_⟩
    intro x hx y hy
    rcases List.mem_map.1 hx with ⟨t1, h1, rfl⟩
    rcases List.mem_map.1 hy with ⟨t2, h2, rfl⟩
    exact hall t1 h1 t2 h2

theorem nonPurple_length (tiles : List Tile) :
    (tiles.filter (fun t => t.color ≠ Color.purple)).length =
      tiles.length - purpleCount tiles := by
  have h := length_filter_add_length_filter_not
    (fun t : Tile => decide (t.color = Color.purple)) tiles
  have heq : tiles.filter (fun t => !decide (t.color = Color.purple)) =
      tiles.filter (fun t => t.color ≠ Color.purple) := by
    apply List.filter_congr
    intro a _
    simp
  rw [heq] at h
  unfold purpleCount
  omega

theorem colors_count_iff (tiles : List Tile) :
    ((nonPurpleColors tiles).length = tiles.length - purpleCount tiles) ↔
      ((tiles.filter (fun t => t.color ≠ Color.purple)).map Tile.color).Nodup := by
  unfold nonPurpleColors
  rw [← nonPurple_length tiles, ← dedup_length_eq_length_iff]
  rw [List.length_map]

/-- C2: is_valid_group equals the amended description — no upper size
bound, value-sharing includes jokers' `None`, distinct non-purple colors. -/
theorem C2_group_amended (tiles : List Tile) :
    is_valid_group tiles = true ↔ groupAmendedSpec tiles := by
  unfold is_valid_group groupAmendedSpec
  by_cases h1 : tiles.length < 3
  · rw [if_pos h1]
    constructor
    · intro h; cases h
    · rintro ⟨h3, -, -⟩; omega
  · rw [if_neg h1]
    by_cases h2 : ((tiles.map Tile.value).dedup.length ≠ 1) ∨
        ((nonPurpleColors tiles).length ≠ tiles.length - purpleCount tiles)
    · rw [if_pos h2]
      constructor
      · intro h; cases h
      · rintro ⟨h3, hvals, hcols⟩
        rcases h2 with h2 | h2
        · exact (h2 ((values_dedup_one_iff tiles).2
            ⟨List.ne_nil_of_length_pos (by omega), hvals⟩)).elim
        · exact (h2 ((colors_count_iff tiles).2 hcols)).elim
    · rw [if_neg h2]
      push_neg at h2
      constructor
      · intro _
        exact ⟨by omega, ((values_dedup_one_iff tiles).1 h2.1).2,
          (colors_count_iff tiles).1 h2.2⟩
      · intro _; rfl

/-- C2 counterexample: the claim accepts `[red 5, blue 5, joker]` but the
code rejects every joker/number mix, and the claim's 4-tile upper bound is
not enforced — five purple jokers pass `is_valid_group`. -/
theorem C2_counterexample :
    (claimGroupSpec [rT 5, bT 5, purpleJ] = true ∧
      is_valid_group [rT 5, bT 5, purpleJ] = false) ∧
    (claimGroupSpec [purpleJ, purpleJ, purpleJ, purpleJ, purpleJ] = false ∧
      is_valid_group [purpleJ, purpleJ, purpleJ, purpleJ, purpleJ] = true) := by decide

/-! ### C4: totality of the validators -/

theorem runNumbers_purple_bound (tiles : List Tile)
    (hWF : ∀ t ∈ tiles, t.color = Color.purple → t.value = none) :
    (runNumbers tiles).length + purpleCount tiles ≤ tiles.length := by
  induction tiles with
  | nil => simp [runNumbers, purpleCount]
  | cons t rest ih =>
    have hWFr : ∀ x ∈ rest, x.color = Color.purple → x.value = none :=
      fun x hx => hWF x (by simp [hx])
    have iht := ih hWFr
    by_cases hp : t.color = Color.purple
    · have hv : t.value = none := hWF t (by simp) hp
      have h1 : runNumbers (t :: rest) = runNumbers rest := by
        simp [runNumbers, List.filterMap_cons, hv]
      have h2 : purpleCount (t :: rest) = purpleCount rest + 1 := by
        simp [purpleCount, List.filter_cons, hp]
      rw [h1, h2, List.length_cons]
      omega
    · have h2 : purpleCount (t :: rest) = purpleCount rest := by
        simp [purpleCount, List.filter_cons, hp]
      have h1 : (runNumbers (t :: rest)).length ≤ (runNumbers rest).length + 1 := by
        cases hv : t.value
        · simp [runNumbers, List.filterMap_cons, hv]
        · simp [runNumbers, List.filterMap_cons, hv]
      rw [h2, List.length_cons]
      omega

/-- C4: is_valid_group is total, but is_valid_run raises IndexError exactly
on lists with no numbered value, at least three purple jokers, and at most
one distinct non-purple color; on well-formed short inputs both validators
return false. -/
theorem C4_totality_amended (tiles : List Tile) :
    (is_valid_run tiles = none ↔
      (runNumbers tiles = [] ∧ 3 ≤ purpleCount tiles ∧
        (nonPurpleColors tiles).length ≤ 1)) ∧
    ((∀ t ∈ tiles, t.color = Color.purple → t.value = none) →
      tiles.length < 3 →
      is_valid_run tiles = some false ∧ is_valid_group tiles = false) := by
  constructor
  · unfold is_valid_run
    by_cases h1 : 1 < (nonPurpleColors tiles).length
    · rw [if_pos h1]
      constructor
      · intro h; cases h
      · rintro ⟨-, -, hc⟩; omega
    · rw [if_neg h1]
      by_cases h2 : (runNumbers tiles).length + purpleCount tiles < 3
      · rw [if_pos h2]
        constructor
        · intro h; cases h
        · rintro ⟨hz, hp, -⟩
          rw [hz] at h2
          simp only [List.length_nil] at h2
          omega
      · rw [if_neg h2]
        cases hns : runNumbers tiles with
        | nil =>
          constructor
          · intro _
            refine ⟨rfl, ?_, by omega⟩
            rw [hns] at h2
            simp only [List.length_nil] at h2
            omega
          · intro _; rfl
        | cons n0 rest =>
          constructor
          · intro h; cases h
          · rintro ⟨h, -, -⟩; cases h
  · intro hWF hlen
    have hb := runNumbers_purple_bound tiles hWF
    have h2 : (runNumbers tiles).length + purpleCount tiles < 3 := by omega
    constructor
    · unfold is_valid_run
      by_cases h1 : 1 < (nonPurpleColors tiles).length
      · rw [if_pos h1]
      · rw [if_neg h1, if_pos h2]
    · unfold is_valid_group
      rw [if_pos hlen]

/-- C4 counterexample: `is_valid_run` raises IndexError (modelled `none`)
on a list of three purple jokers, contradicting the never-raises claim. -/
theorem C4_counterexample :
    is_valid_run [purpleJ, purpleJ, purpleJ] = none := by decide

/-- C4 witness: the amended theorem applied to the singleton `[red 1]`. -/
theorem C4_totality_amended_witness :
    is_valid_run [rT 1] = some false ∧ is_valid_group [rT 1] = false :=
  (C4_totality_amended [rT 1]).2 (by decide) (by decide)

/-! ### C5: determine_joker_value -/

theorem gapScan_eq_zipFind :
    ∀ (rest : List Int) (a : Int),
      gapScan (a :: rest) =
        (((a :: rest).zip rest).find? (fun p => decide (1 < p.2 - p.1))).map
          (fun p => p.1 + 1) := by
  intro rest
  induction rest with
  | nil => intro a; simp [gapScan]
  | cons b r ih =>
    intro a
    rw [show ((a :: b :: r).zip (b :: r)) = (a, b) :: ((b :: r).zip r) from rfl]
    by_cases h : 1 < b - a
    · rw [List.find?_cons_of_pos _ (by simpa using h)]
      simp [gapScan, h]
    · rw [List.find?_cons_of_neg _ (by simpa using h)]
      rw [← ih b]
      simp [gapScan, h]

/-- C5: determine_joker_value equals the amended description — as the claim
states it, except that a multi-tile meld with no numbered tile raises
IndexError, and the end-extension test reads the first list position. -/
theorem C5_joker_value_amended (tiles : List Tile) :
    determine_joker_value tiles = djvAmendedSpec tiles := by
  unfold determine_joker_value djvAmendedSpec
  by_cases hlen : tiles.length = 1
  · rw [if_pos hlen, if_pos hlen]
  · rw [if_neg hlen, if_neg hlen]
    cases hns : runNumbers tiles with
    | nil => simp [sortInt, pySort]
    | cons n ns' =>
      have hperm := sortInt_perm (n :: ns')
      cases hs : sortInt (n :: ns') with
      | nil =>
        rw [hs] at hperm
        have hlen0 := hperm.length_eq
        simp at hlen0
      | cons v rest =>
        rw [hs] at hperm
        dsimp only
        by_cases hd : ((n :: ns') : List Int).dedup.length = 1
        · rw [if_pos hd]
          have hall := (dedup_length_eq_one_iff (n :: ns')).1 hd
          have hvn : v = n := hall.2 v (hperm.mem_iff.1 (by simp)) n (by simp)
          have hrest : rest.all (fun x => decide (x = v)) = true := by
            rw [List.all_eq_true]
            intro x hx
            have hx' : x ∈ n :: ns' := hperm.mem_iff.1 (by simp [hx])
            have hxn := hall.2 x hx' n (by simp)
            simp [hxn, hvn]
          rw [if_pos hrest, hvn]
        · rw [if_neg hd]
          have hrest : ¬ (rest.all (fun x => decide (x = v)) = true) := by
            intro hallr
            apply hd
            apply (dedup_length_eq_one_iff (n :: ns')).2
            refine ⟨by simp, ?_⟩
            have hmemv : ∀ x ∈ (n :: ns'), x = v := by
              intro x hx
              have hx' : x ∈ v :: rest := hperm.mem_iff.2 hx
              rcases List.mem_cons.1 hx' with h | h
              · exact h
              · simpa using (List.all_eq_true.1 hallr) x h
            intro x hx y hy
            rw [hmemv x hx, hmemv y hy]
          rw [if_neg hrest]
          rw [gapScan_eq_zipFind rest v]
          cases hfind : ((v :: rest).zip rest).find? (fun p => decide (1 < p.2 - p.1)) with
          | some p => simp
          | none => simp

/-- C5 counterexample: three purple jokers are a meld by the code's own
group validator, yet `determine_joker_value` raises IndexError (`none`)
instead of returning a value. -/
theorem C5_counterexample :
    is_valid_group [purpleJ, purpleJ, purpleJ] = true ∧
    determine_joker_value [purpleJ, purpleJ, purpleJ] = none := by decide

/-! ### Helper lemmas for claim C6 -/

theorem tileLe_total (a b : Tile) :
    tileLeByValue a b = true ∨ tileLeByValue b a = true := by
  unfold tileLeByValue
  rcases le_total (a.value.getD 0) (b.value.getD 0) with h | h
  · left; simpa using h
  · right; simpa using h

theorem tileLe_trans (a b c : Tile) (h1 : tileLeByValue a b = true)
    (h2 : tileLeByValue b c = true) : tileLeByValue a c = true := by
  unfold tileLeByValue at *
  simp only [decide_eq_true_eq] at *
  omega

theorem sortTiles_perm (l : List Tile) : (pySort tileLeByValue l).Perm l :=
  pySort_perm _ l

theorem sortTiles_pairwise (l : List Tile) :
    (pySort tileLeByValue l).Pairwise (fun a b => tileLeByValue a b = true) :=
  pySort_pairwise _ tileLe_total tileLe_trans l

theorem pySort_eq_self_of_pairwise {α : Type} (le : α → α → Bool) :
    ∀ l : List α, l.Pairwise (fun a b => le a b = true) → pySort le l = l := by
  intro l
  induction l with
  | nil => intro _; rfl
  | cons a l ih =>
    intro hp
    rcases List.pairwise_cons.1 hp with ⟨ha, hl⟩
    rw [pySort, ih hl]
    cases l with
    | nil => rfl
    | cons b l' =>
      rw [insertLe, if_pos (ha b (by simp))]

theorem foldl_max_ge_init {α : Type} (f : α → Int) :
    ∀ (l : List α) (init : Int), init ≤ l.foldl (fun acc x => max acc (f x)) init := by
  intro l
  induction l with
  | nil => intro init; simp
  | cons a l ih =>
    intro init
    calc init ≤ max init (f a) := le_max_left _ _
      _ ≤ l.foldl (fun acc x => max acc (f x)) (max init (f a)) := ih _

theorem foldl_max_ge_mem {α : Type} (f : α → Int) :
    ∀ (l : List α) (init : Int) (x : α), x ∈ l →
      f x ≤ l.foldl (fun acc x => max acc (f x)) init := by
  intro l
  induction l with
  | nil => intro init x hx; cases hx
  | cons a l ih =>
    intro init x hx
    rcases List.mem_cons.1 hx with rfl | hx
    · calc f x ≤ max init (f x) := le_max_right _ _
        _ ≤ l.foldl (fun acc y => max acc (f y)) (max init (f x)) := foldl_max_ge_init f l _
    · exact ih _ x hx

theorem bw_nonneg : ∀ (fuel : Nat) (s : List Tile), 0 ≤ bw fuel s := by
  intro fuel
  cases fuel with
  | zero => intro s; simp [bw]
  | succ f => intro s; exact foldl_max_ge_init _ _ 0

theorem bw_ge (fuel : Nat) (s m : List Tile)
    (hm : m ∈ s.sublists) (hmeld : meldable m = true) :
    pointsKey (pySort tileLeByValue m) + bw fuel (s.diff m) ≤ bw (fuel + 1) s := by
  show _ ≤ (s.sublists.filter meldable).foldl
    (fun acc m => max acc (pointsKey (pySort tileLeByValue m) + bw fuel (s.diff m))) 0
  exact foldl_max_ge_mem _ _ 0 m (List.mem_filter.2 ⟨hm, hmeld⟩)

theorem chain_succ_head_lt :
    ∀ (l : List Int) (a : Int),
      List.Chain' (fun x y => y = x + 1) (a :: l) → ∀ x ∈ l, a < x := by
  intro l
  induction l with
  | nil => intro a _ x hx; cases hx
  | cons b r ih =>
    intro a hc x hx
    rcases List.chain'_cons.1 hc with ⟨hab, hbr⟩
    rcases List.mem_cons.1 hx with rfl | hx
    · omega
    · have := ih b hbr x hx
      omega

theorem chain_succ_pairwise :
    ∀ l : List Int, List.Chain' (fun x y => y = x + 1) l →
      l.Pairwise (· < ·) := by
  intro l
  induction l with
  | nil => intro _; simp
  | cons a r ih =>
    intro hc
    refine List.pairwise_cons.2 ⟨chain_succ_head_lt r a hc, ih ?_⟩
    exact hc.tail

theorem runWalk_of_chain :
    ∀ (l : List Int) (e : Int) (j : Nat),
      List.Chain' (fun x y => y = x + 1) (e :: l) → runWalk (e :: l) e j = true := by
  intro l
  induction l with
  | nil => intro e j _; simp [runWalk]
  | cons b r ih =>
    intro e j hc
    rcases List.chain'_cons.1 hc with ⟨hb, hbr⟩
    have hstep : runWalk (e :: b :: r) e j = runWalk (b :: r) (e + 1) j := by
      simp [runWalk]
    rw [hstep, ← hb]
    exact ih b j hbr

theorem runNumbers_eq_map_keyv (m : List Tile) (h : ∀ t ∈ m, t.value.isSome) :
    runNumbers m = m.map keyv := by
  induction m with
  | nil => rfl
  | cons t rest ih =>
    have ht := h t (by simp)
    cases hv : t.value with
    | none => rw [hv] at ht; cases ht
    | some v =>
      have h1 : runNumbers (t :: rest) = v :: runNumbers rest := by
        simp [runNumbers, List.filterMap_cons, hv]
      rw [h1, ih (fun x hx => h x (by simp [hx]))]
      simp [keyv, hv]

theorem runNumbers_length_eq (m : List Tile) (h : ∀ t ∈ m, t.value.isSome) :
    (runNumbers m).length = m.length := by
  rw [runNumbers_eq_map_keyv m h, List.length_map]

theorem runNumbers_replicate (m : List Tile) (v : Int)
    (h : ∀ t ∈ m, t.value = some v) :
    runNumbers m = List.replicate m.length v := by
  induction m with
  | nil => rfl
  | cons t rest ih =>
    have h1 : runNumbers (t :: rest) = v :: runNumbers rest := by
      simp [runNumbers, List.filterMap_cons, h t (by simp)]
    rw [h1, ih (fun x hx => h x (by simp [hx])), List.length_cons,
      List.replicate_succ]

theorem purpleCount_eq_zero (m : List Tile)
    (h : ∀ t ∈ m, t.color ≠ Color.purple) : purpleCount m = 0 := by
  unfold purpleCount
  have : m.filter (fun t => t.color = Color.purple) = [] := by
    rw [List.filter_eq_nil_iff]
    intro t ht
    simpa using h t ht
  rw [this]
  rfl

theorem dedup_length_le_one_of_all_eq {α : Type} [DecidableEq α]
    (l : List α) (a : α) (h : ∀ x ∈ l, x = a) : l.dedup.length ≤ 1 := by
  rcases eq_or_ne l [] with rfl | hne
  · simp
  · rw [dedup_eq_single_of_all_eq a l hne h]
    simp

theorem is_valid_run_of_run_shape (m : List Tile) (c : Color)
    (hc : c ≠ Color.purple) (hcol : ∀ t ∈ m, t.color = c)
    (hv : ∀ t ∈ m, t.value.isSome) (hlen : 3 ≤ m.length)
    (hchain : List.Chain' (fun x y => y = x + 1) (runNumbers m)) :
    is_valid_run m = some true := by
  have hp0 : purpleCount m = 0 :=
    purpleCount_eq_zero m (fun t ht => by rw [hcol t ht]; exact hc)
  have hlen' : (runNumbers m).length = m.length := runNumbers_length_eq m hv
  have hcle : (nonPurpleColors m).length ≤ 1 := by
    unfold nonPurpleColors
    apply dedup_length_le_one_of_all_eq _ c
    intro x hx
    rcases List.mem_map.1 hx with ⟨t, ht, rfl⟩
    exact hcol t (List.mem_of_mem_filter ht)
  unfold is_valid_run
  rw [if_neg (by omega), if_neg (by omega)]
  cases hns : runNumbers m with
  | nil => rw [hns] at hlen'; simp at hlen'; omega
  | cons n0 rest =>
    rw [hns] at hchain
    show some (runWalk (n0 :: rest) n0 (purpleCount m)) = some true
    rw [runWalk_of_chain rest n0 _ hchain]

theorem is_valid_group_of (m : List Tile) (v : Int) (hlen : 3 ≤ m.length)
    (hv : ∀ t ∈ m, t.value = some v) (hc : (m.map Tile.color).Nodup) :
    is_valid_group m = true := by
  have h2 : ¬(((m.map Tile.value).dedup.length ≠ 1) ∨
      ((nonPurpleColors m).length ≠ m.length - purpleCount m)) := by
    push_neg
    constructor
    · exact (values_dedup_one_iff m).2
        ⟨List.ne_nil_of_length_pos (by omega),
          fun t1 h1 t2 h2 => by rw [hv t1 h1, hv t2 h2]⟩
    · apply (colors_count_iff m).2
      exact ((List.filter_sublist m).map Tile.color).nodup hc
  unfold is_valid_group
  rw [if_neg (by omega), if_neg h2]

theorem is_valid_group_perm {l1 l2 : List Tile} (h : l1.Perm l2) :
    is_valid_group l1 = is_valid_group l2 := by
  have hlen := h.length_eq
  have hval : (l1.map Tile.value).dedup.length = (l2.map Tile.value).dedup.length :=
    ((h.map Tile.value).dedup).length_eq
  have hcol : (nonPurpleColors l1).length = (nonPurpleColors l2).length := by
    unfold nonPurpleColors
    exact (((h.filter _).map Tile.color).dedup).length_eq
  have hpur : purpleCount l1 = purpleCount l2 := by
    unfold purpleCount
    exact (h.filter _).length_eq
  unfold is_valid_group
  rw [hlen, hval, hcol, hpur]

theorem mapM_const_values (v : Int) :
    ∀ m : List Tile, (∀ t ∈ m, t.value = some v) →
      m.mapM (fun t => if t.isJoker then some v else t.value) =
        some (List.replicate m.length v) := by
  intro m
  induction m with
  | nil => intro _; rfl
  | cons t rest ih =>
    intro h
    have ht : (if t.isJoker then some v else t.value) = some v := by
      by_cases hj : t.isJoker
      · rw [if_pos hj]
      · rw [if_neg hj]; exact h t (by simp)
    have hr := ih (fun x hx => h x (by simp [hx]))
    rw [List.mapM_cons, ht, hr]
    rfl

theorem calculate_points_const (m : List Tile) (v : Int) (hlen : m.length ≠ 1)
    (hne : m ≠ []) (hv : ∀ t ∈ m, t.value = some v) :
    calculate_points m = some ((m.length : Int) * v) := by
  have hrep : runNumbers m = List.replicate m.length v := runNumbers_replicate m v hv
  have hdjv : determine_joker_value m = some v := by
    unfold determine_joker_value
    rw [if_neg hlen]
    cases hn : m.length with
    | zero => exact absurd (List.length_eq_zero.1 hn) hne
    | succ k =>
      rw [hn] at hrep
      have hded : (List.replicate (k + 1) v).dedup.length = 1 := by
        rw [dedup_eq_single_of_all_eq v _ (by simp)
          (fun x hx => List.eq_of_mem_replicate hx)]
        simp
      rw [hrep, List.replicate_succ]
      dsimp only
      rw [← List.replicate_succ, if_pos hded]
  unfold calculate_points
  rw [hdjv]
  simp only [Option.bind_eq_bind, Option.some_bind]
  rw [mapM_const_values v m hv]
  simp only [Option.some_bind]
  rw [List.sum_replicate, nsmul_eq_mul]
  rfl

theorem pairwise_lt_of_le_nodup :
    ∀ l : List Tile, l.Pairwise (fun a b => tileLeByValue a b = true) →
      (l.map keyv).Nodup → l.Pairwise (fun a b => keyv a < keyv b) := by
  intro l
  induction l with
  | nil => intro _ _; simp
  | cons a r ih =>
    intro hle hnd
    rcases List.pairwise_cons.1 hle with ⟨ha, hr⟩
    rw [List.map_cons] at hnd
    rcases List.nodup_cons.1 hnd with ⟨hna, hndr⟩
    refine List.pairwise_cons.2 ⟨?_, ih hr hndr⟩
    intro b hb
    have h1 : keyv a ≤ keyv b := by
      have := ha b hb
      simpa [tileLeByValue, keyv] using this
    have h2 : keyv a ≠ keyv b := fun he => hna (he ▸ List.mem_map_of_mem keyv hb)
    omega

theorem eq_of_perm_of_strict_sorted (l1 l2 : List Tile) (h : l1.Perm l2)
    (h1 : l1.Pairwise (fun a b => keyv a < keyv b))
    (h2 : l2.Pairwise (fun a b => keyv a < keyv b)) : l1 = l2 := by
  haveI : IsAntisymm Tile (fun a b => keyv a < keyv b) :=
    ⟨fun a b hab hba => absurd (lt_trans hab hba) (lt_irrefl _)⟩
  exact List.eq_of_perm_of_sorted h h1 h2

/-- Rearranging a `find_valid_sets` meld keeps it `meldable` and keeps its
point value: the value-sorted rearrangement of a run is the run itself, and
a group is validated and priced permutation-independently. -/
theorem meld_transfer (m m₀ : List Tile) (hperm : m₀.Perm m)
    (_hnd : m.Nodup) (hlen3 : 3 ≤ m.length) (hshape : RunOK m ∨ GroupOK m) :
    meldable m₀ = true ∧ pointsKey (pySort tileLeByValue m₀) = pointsKey m := by
  have hlen₀ : m₀.length = m.length := hperm.length_eq
  rcases hshape with hrun | hgrp
  · obtain ⟨hsome, hchain, hvalid⟩ := hrun
    have hmapkey : runNumbers m = m.map keyv := runNumbers_eq_map_keyv m hsome
    have hltv := chain_succ_pairwise _ hchain
    have hltm : m.Pairwise (fun a b => keyv a < keyv b) := by
      rw [hmapkey] at hltv
      exact (List.pairwise_map).1 hltv
    have hndk : (m.map keyv).Nodup := by
      rw [← hmapkey]
      exact (chain_succ_pairwise _ hchain).imp (fun hlt => ne_of_lt hlt)
    have hp2 : (pySort tileLeByValue m₀).Perm m := (sortTiles_perm m₀).trans hperm
    have hpermk : ((pySort tileLeByValue m₀).map keyv).Nodup :=
      ((hp2.map keyv).nodup_iff).2 hndk
    have hlt₀ : (pySort tileLeByValue m₀).Pairwise (fun a b => keyv a < keyv b) :=
      pairwise_lt_of_le_nodup _ (sortTiles_pairwise m₀) hpermk
    have heq : pySort tileLeByValue m₀ = m :=
      eq_of_perm_of_strict_sorted _ _ hp2 hlt₀ hltm
    constructor
    · unfold meldable
      rw [heq]
      simp only [Bool.and_eq_true, Bool.or_eq_true, decide_eq_true_eq]
      exact ⟨by omega, Or.inl hvalid⟩
    · rw [heq]
  · obtain ⟨⟨v, hval⟩, hvalid⟩ := hgrp
    have hvg₀ : is_valid_group m₀ = true := by
      rw [is_valid_group_perm hperm]; exact hvalid
    constructor
    · unfold meldable
      simp only [Bool.and_eq_true, Bool.or_eq_true, decide_eq_true_eq]
      exact ⟨by omega, Or.inr hvg₀⟩
    · have hval₀ : ∀ t ∈ pySort tileLeByValue m₀, t.value = some v := fun t ht =>
        hval t (hperm.mem_iff.1 ((sortTiles_perm m₀).mem_iff.1 ht))
      have hlenS : (pySort tileLeByValue m₀).length = m.length := by
        rw [(sortTiles_perm m₀).length_eq, hlen₀]
      have h1 := calculate_points_const (pySort tileLeByValue m₀) v
        (by omega) (List.ne_nil_of_length_pos (by omega)) hval₀
      have h2 := calculate_points_const m v (by omega)
        (List.ne_nil_of_length_pos (by omega)) hval
      unfold pointsKey
      rw [h1, h2, hlenS]

theorem combos_sublist {α : Type} :
    ∀ (k : Nat) (l m : List α), m ∈ combos k l → m.Sublist l ∧ m.length = k := by
  intro k l
  induction l generalizing k with
  | nil =>
    intro m hm
    cases k with
    | zero =>
      simp only [combos, List.mem_singleton] at hm
      subst hm
      exact ⟨List.nil_sublist _, rfl⟩
    | succ k => simp [combos] at hm
  | cons a rest ih =>
    intro m hm
    cases k with
    | zero =>
      simp only [combos, List.mem_singleton] at hm
      subst hm
      exact ⟨List.nil_sublist _, rfl⟩
    | succ k =>
      rw [combos] at hm
      rcases List.mem_append.1 hm with hm | hm
      · rcases List.mem_map.1 hm with ⟨c, hc, rfl⟩
        obtain ⟨hs, hl⟩ := ih k c hc
        exact ⟨List.Sublist.cons₂ a hs, by simp [hl]⟩
      · obtain ⟨hs, hl⟩ := ih (k + 1) m hm
        exact ⟨List.Sublist.cons a hs, hl⟩

theorem find_valid_groups_mem (snt m : List Tile)
    (hm : m ∈ find_valid_groups snt) :
    m.Sublist snt ∧ 3 ≤ m.length ∧ (m.map Tile.color).Nodup := by
  unfold find_valid_groups at hm
  by_cases h3 : 3 ≤ snt.length
  · rw [if_pos h3] at hm
    rcases List.mem_append.1 hm with hm | hm
    · rcases List.mem_filter.1 hm with ⟨hmc, hcol⟩
      obtain ⟨hs, hl⟩ := combos_sublist 3 snt m hmc
      refine ⟨hs, by omega, ?_⟩
      rw [← dedup_length_eq_length_iff]
      simp only [decide_eq_true_eq] at hcol
      rw [hcol, List.length_map, hl]
    · by_cases h4 : snt.length = 4 ∧ (snt.map Tile.color).dedup.length = 4
      · rw [if_pos h4] at hm
        simp only [List.mem_singleton] at hm
        subst hm
        refine ⟨List.Sublist.refl _, by omega, ?_⟩
        rw [← dedup_length_eq_length_iff, h4.2, List.length_map, h4.1]
      · rw [if_neg h4] at hm; cases hm
  · rw [if_neg h3] at hm; cases hm

theorem find_valid_runs_mem (tiles m : List Tile)
    (hm : m ∈ find_valid_runs tiles) :
    ∃ c, c ≠ Color.purple ∧ (∀ t ∈ m, t ∈ tiles ∧ t.color = c) ∧
      3 ≤ m.length ∧ consecutiveB m = true := by
  unfold find_valid_runs at hm
  rcases List.mem_flatMap.1 hm with ⟨c, hc, hmc⟩
  have hcp : c ≠ Color.purple := by
    simp only [List.mem_cons, List.mem_singleton] at hc
    rcases hc with rfl | rfl | rfl | rfl | h
    · decide
    · decide
    · decide
    · decide
    · cases h
  refine ⟨c, hcp, ?_⟩
  rcases List.mem_flatMap.1 hmc with ⟨i, hi, hmi⟩
  rcases List.mem_filterMap.1 hmi with ⟨j, hj, hcond⟩
  rw [List.mem_range] at hi
  rw [List.mem_range'_1] at hj
  set sct := pySort tileLeByValue (tiles.filter (fun t => t.color = c)) with hsct
  by_cases hcons : consecutiveB ((sct.drop i).take (j + 1 - i)) = true
  · rw [if_pos hcons] at hcond
    have hmeq : m = (sct.drop i).take (j + 1 - i) := by
      injection hcond with h
      exact h.symm
    subst hmeq
    have hsl : ((sct.drop i).take (j + 1 - i)).Sublist sct :=
      (List.take_sublist _ _).trans (List.drop_sublist _ _)
    have hjlt : j < sct.length := by omega
    have hlenm : ((sct.drop i).take (j + 1 - i)).length = j + 1 - i := by
      rw [List.length_take, List.length_drop]
      omega
    refine ⟨?_, by omega, hcons⟩
    intro t ht
    have h1 : t ∈ sct := hsl.subset ht
    have h2 : t ∈ tiles.filter (fun t => t.color = c) :=
      (sortTiles_perm _).mem_iff.1 h1
    rcases List.mem_filter.1 h2 with ⟨h3, h4⟩
    exact ⟨h3, by simpa using h4⟩
  · rw [if_neg hcons] at hcond
    cases hcond

theorem consecutiveB_chain :
    ∀ m : List Tile, consecutiveB m = true → (∀ t ∈ m, t.value.isSome) →
      List.Chain' (fun x y => y = x + 1) (runNumbers m) := by
  intro m
  induction m with
  | nil => intro _ _; simp [runNumbers]
  | cons a rest ih =>
    cases rest with
    | nil =>
      intro _ _
      cases hv : a.value
      · simp [runNumbers, List.filterMap_cons, hv]
      · simp [runNumbers, List.filterMap_cons, hv]
    | cons b r =>
      intro hc hv
      rw [consecutiveB, Bool.and_eq_true] at hc
      obtain ⟨h1, h2⟩ := hc
      cases ha : a.value with
      | none => rw [ha] at h1; cases h1
      | some x =>
        cases hb : b.value with
        | none => rw [ha, hb] at h1; cases h1
        | some y =>
          rw [ha, hb] at h1
          simp only [decide_eq_true_eq] at h1
          have hrest := ih h2 (fun t ht => hv t (by simp [ht]))
          have hra : runNumbers (a :: b :: r) = x :: runNumbers (b :: r) := by
            simp [runNumbers, List.filterMap_cons, ha]
          have hrb : runNumbers (b :: r) = y :: runNumbers r := by
            simp [runNumbers, List.filterMap_cons, hb]
          rw [hra, hrb]
          rw [hrb] at hrest
          exact List.chain'_cons.2 ⟨h1, hrest⟩

/-- Every meld emitted by `find_valid_sets` is drawn from the hand, has no
duplicate tile, has at least three tiles, and is a consecutive same-color
run or an equal-valued distinct-colored group. -/
theorem fvs_meldOK (hand : List Tile) :
    ∀ m ∈ find_valid_sets hand, MeldOK hand m := by
  intro m hm
  unfold find_valid_sets at hm
  rcases List.mem_append.1 hm with hm | hm
  · rcases List.mem_flatMap.1 hm with ⟨k, hk, hmk⟩
    obtain ⟨hs, h3, hnodc⟩ := find_valid_groups_mem _ m hmk
    have hval : ∀ t ∈ m, t.value = some ((k : Int) + 1) := by
      intro t ht
      have h1 := hs.subset ht
      simpa using (List.mem_filter.1 h1).2
    refine ⟨?_, List.Nodup.of_map Tile.color hnodc, h3,
      Or.inr ⟨⟨_, hval⟩, is_valid_group_of m _ h3 hval hnodc⟩⟩
    intro t ht
    have h1 := hs.subset ht
    have h2 := (List.mem_filter.1 h1).1
    exact List.mem_of_mem_filter h2
  · obtain ⟨c, hcp, hmem, h3, hcons⟩ :=
      find_valid_runs_mem (hand.filter (fun t => t.value.isSome)) m hm
    have hvals : ∀ t ∈ m, t.value.isSome := by
      intro t ht
      simpa using (List.mem_filter.1 (hmem t ht).1).2
    have hchain := consecutiveB_chain m hcons hvals
    have hvalid := is_valid_run_of_run_shape m c hcp
      (fun t ht => (hmem t ht).2) hvals h3 hchain
    refine ⟨fun t ht => List.mem_of_mem_filter (hmem t ht).1, ?_, h3,
      Or.inl ⟨hvals, hchain, hvalid⟩⟩
    have hmk : runNumbers m = m.map keyv := runNumbers_eq_map_keyv m hvals
    have hnd := (chain_succ_pairwise _ hchain).imp (fun hlt => ne_of_lt hlt)
    rw [hmk] at hnd
    exact List.Nodup.of_map keyv hnd

/-- The greedy packing loop returns a family of melds of the hand that is
pairwise disjoint, with its accumulated total equal to the family's total
point value. -/
theorem greedyPack_props (hand : List Tile) :
    ∀ (l : List (List Tile)) (used : List Tile) (acc : List (List Tile)) (tot : Int),
      (∀ m ∈ l, MeldOK hand m) →
      (∀ m ∈ acc, MeldOK hand m) →
      PairwiseDisj acc →
      (∀ m ∈ acc, ∀ t ∈ m, t ∈ used) →
      (acc.map pointsKey).sum = tot →
      (∀ m ∈ (greedyPack l used acc tot).1, MeldOK hand m) ∧
      PairwiseDisj (greedyPack l used acc tot).1 ∧
      ((greedyPack l used acc tot).1.map pointsKey).sum =
        (greedyPack l used acc tot).2 := by
  intro l
  induction l with
  | nil =>
    intro used acc tot _ hacc hdisj _ hsum
    exact ⟨hacc, hdisj, hsum⟩
  | cons m rest ih =>
    intro used acc tot hl hacc hdisj hused hsum
    have hstep : greedyPack (m :: rest) used acc tot =
        if (30 : Int) ≤ tot then (acc, tot)
        else if m.any (fun t => t ∈ used) then greedyPack rest used acc tot
        else greedyPack rest (used ++ m) (acc ++ [m]) (tot + pointsKey m) := rfl
    rw [hstep]
    by_cases h30 : (30 : Int) ≤ tot
    · rw [if_pos h30]
      exact ⟨hacc, hdisj, hsum⟩
    · rw [if_neg h30]
      by_cases hint : m.any (fun t => t ∈ used) = true
      · rw [if_pos hint]
        exact ih used acc tot (fun m' hm' => hl m' (by simp [hm']))
          hacc hdisj hused hsum
      · rw [if_neg hint]
        apply ih
        · intro m' hm'; exact hl m' (by simp [hm'])
        · intro m' hm'
          rcases List.mem_append.1 hm' with hm' | hm'
          · exact hacc m' hm'
          · simp only [List.mem_singleton] at hm'
            subst hm'
            exact hl m' (by simp)
        · rw [PairwiseDisj, List.pairwise_append]
          refine ⟨hdisj, List.pairwise_singleton _ _, ?_⟩
          intro m1 hm1 m2 hm2
          simp only [List.mem_singleton] at hm2
          subst hm2
          intro t ht htm
          have h1 : t ∈ used := hused m1 hm1 t ht
          have h2 : m2.any (fun t => t ∈ used) = true :=
            List.any_eq_true.2 ⟨t, htm, by simpa using h1⟩
          exact hint h2
        · intro m' hm' t ht
          rcases List.mem_append.1 hm' with hm' | hm'
          · exact List.mem_append_left _ (hused m' hm' t ht)
          · simp only [List.mem_singleton] at hm'
            subst hm'
            exact List.mem_append_right _ ht
        · simp [hsum]

/-- Any pairwise-disjoint family of well-shaped melds drawn from `s` totals
at most `bw fuel s` — the claim's "worth of the hand". -/
theorem packBound :
    ∀ (fuel : Nat) (F : List (List Tile)) (s : List Tile),
      s.length ≤ fuel → (∀ m ∈ F, MeldOK s m) → PairwiseDisj F →
      (F.map pointsKey).sum ≤ bw fuel s := by
  intro fuel
  induction fuel with
  | zero =>
    intro F s hlen hok hdisj
    cases F with
    | nil => simp [bw]
    | cons m F' =>
      exfalso
      obtain ⟨hmem, -, hlen3, -⟩ := hok m (by simp)
      rcases m with _ | ⟨t, m'⟩
      · simp at hlen3
      · have ht := hmem t (by simp)
        have hs0 : s = [] := List.length_eq_zero.1 (by omega)
        rw [hs0] at ht
        cases ht
  | succ f ih =>
    intro F s hlen hok hdisj
    cases F with
    | nil => simpa using bw_nonneg (f + 1) s
    | cons m F' =>
      obtain ⟨hmem, hnd, hlen3, hshape⟩ := hok m (by simp)
      have hsubperm : m.Subperm s := hnd.subperm (fun t ht => hmem t ht)
      obtain ⟨m₀, hm₀p, hm₀s⟩ := hsubperm
      obtain ⟨hmeld, hpts⟩ := meld_transfer m m₀ hm₀p hnd hlen3 hshape
      have hbw := bw_ge f s m₀ (List.mem_sublists.2 hm₀s) hmeld
      have hm₀ne : m₀ ≠ [] := by
        intro h
        rw [h] at hm₀p
        have hl0 := hm₀p.length_eq
        simp at hl0
        omega
      have hdifflen : (s.diff m₀).length + 1 ≤ s.length := by
        rcases hm₀ : m₀ with _ | ⟨a, m₁⟩
        · exact absurd hm₀ hm₀ne
        · rw [List.diff_cons]
          have ha : a ∈ s := hm₀s.subset (hm₀ ▸ by simp)
          have h1 : (s.erase a).length = s.length - 1 :=
            List.length_erase_of_mem ha
          have h2 : ((s.erase a).diff m₁).length ≤ (s.erase a).length :=
            (List.diff_sublist _ _).length_le
          have h3 : 1 ≤ s.length := List.length_pos_of_mem ha
          omega
      have hdisj' : PairwiseDisj F' := (List.pairwise_cons.1 hdisj).2
      have hheaddisj := (List.pairwise_cons.1 hdisj).1
      have hok' : ∀ m' ∈ F', MeldOK (s.diff m₀) m' := by
        intro m' hm'
        obtain ⟨hmem', hrest⟩ := hok m' (by simp [hm'])
        refine ⟨?_, hrest⟩
        intro t ht
        apply List.mem_diff_of_mem (hmem' t ht)
        intro htm₀
        have htm : t ∈ m := hm₀p.subset htm₀
        exact hheaddisj m' hm' t htm ht
      have hsum' := ih F' (s.diff m₀) (by omega) hok' hdisj'
      calc ((m :: F').map pointsKey).sum
          = pointsKey m + (F'.map pointsKey).sum := by simp
        _ ≤ pointsKey m + bw f (s.diff m₀) := by omega
        _ = pointsKey (pySort tileLeByValue m₀) + bw f (s.diff m₀) := by
            rw [hpts]
        _ ≤ bw (f + 1) s := hbw

/-- C6 (amended): a hand whose best achievable total over pairwise-disjoint
melds is at most 29 points never passes the initial-meld search, and the
pre-flag branch of play_turn returns None (the caller draws).  A hand worth
exactly 30 need not pass — see the counterexample. -/
theorem C6_initial_meld_amended (board : List (List Tile)) (hand : List Tile)
    (h29 : bestWorth hand ≤ 29) :
    find_tiles_for_30_points hand = none ∧
      play_turn_no_meld board hand = none := by
  have hnone : find_tiles_for_30_points hand = none := by
    unfold find_tiles_for_30_points
    by_cases h30 : (30 : Int) ≤
        (greedyPack (sortDescByPoints (find_valid_sets hand)) [] [] 0).2
    · exfalso
      have hmem : ∀ m ∈ sortDescByPoints (find_valid_sets hand), MeldOK hand m := by
        intro m hm
        exact fvs_meldOK hand m ((pySort_perm _ _).mem_iff.1 hm)
      have hprops := greedyPack_props hand
        (sortDescByPoints (find_valid_sets hand)) [] [] 0
        hmem (fun m hm => absurd hm (List.not_mem_nil m)) List.Pairwise.nil
        (fun m hm => absurd hm (List.not_mem_nil m)) rfl
      have hbound := packBound hand.length
        (greedyPack (sortDescByPoints (find_valid_sets hand)) [] [] 0).1 hand
        le_rfl hprops.1 hprops.2.1
      rw [hprops.2.2] at hbound
      unfold bestWorth at h29
      omega
    · rw [if_neg h30]
  refine ⟨hnone, ?_⟩
  unfold play_turn_no_meld
  by_cases hh : hand = []
  · rw [if_pos hh]
  · rw [if_neg hh, hnone]

/-- C6 counterexample: the hand r5 b5 g5 y5 y4 y6 is worth exactly 30
(group of three 5s plus run y4-y5-y6), yet the initial-meld search fails:
the greedy packing takes the 20-point four-tile group of 5s first, blocking
both 15-point melds, and stops at 20 < 30. -/
theorem C6_counterexample :
    bestWorth [rT 5, bT 5, gT 5, yT 5, yT 4, yT 6] = 30 ∧
    find_tiles_for_30_points [rT 5, bT 5, gT 5, yT 5, yT 4, yT 6] = none ∧
    play_turn_no_meld [] [rT 5, bT 5, gT 5, yT 5, yT 4, yT 6] = none := by decide

/-- C6 witness: a hand worth exactly 29 (r4-r6 and b2-b5, 15 + 14), on
which the amended theorem yields no initial meld and a pass. -/
theorem C6_initial_meld_amended_witness :
    bestWorth [rT 4, rT 5, rT 6, bT 2, bT 3, bT 4, bT 5] = 29 ∧
    find_tiles_for_30_points [rT 4, rT 5, rT 6, bT 2, bT 3, bT 4, bT 5] = none ∧
    play_turn_no_meld [] [rT 4, rT 5, rT 6, bT 2, bT 3, bT 4, bT 5] = none := by
  refine ⟨by decide, ?_, ?_⟩
  · exact (C6_initial_meld_amended []
      [rT 4, rT 5, rT 6, bT 2, bT 3, bT 4, bT 5] (by decide)).1
  · exact (C6_initial_meld_amended []
      [rT 4, rT 5, rT 6, bT 2, bT 3, bT 4, bT 5] (by decide)).2

/-! ### C7: the Greedy strategy's selection -/

theorem lexLE_trans {p q r : Int × Int} (h1 : lexLE p q) (h2 : lexLE q r) :
    lexLE p r := by
  unfold lexLE at *
  omega

theorem greedyScanStep_inv (s0 : GreedyScan)
    (q : List Tile × (List (List Tile) × List Tile))
    (hs0 : ∀ p, s0.best = some p →
      (s0.maxLen, s0.maxSum) = ((p.1.length : Int), meldRawSum p.1)) :
    ∀ p, (greedyScanStep s0 q).best = some p →
      ((greedyScanStep s0 q).maxLen, (greedyScanStep s0 q).maxSum) =
        ((p.1.length : Int), meldRawSum p.1) := by
  intro p hp
  unfold greedyScanStep at hp ⊢
  by_cases hc : s0.maxLen < (q.1.length : Int) ∨
      ((q.1.length : Int) = s0.maxLen ∧ s0.maxSum < meldRawSum q.1)
  · rw [if_pos hc] at hp ⊢
    simp only [Option.some.injEq] at hp
    subst hp
    rfl
  · rw [if_neg hc] at hp ⊢
    exact hs0 p hp

theorem greedyScanStep_le (s0 : GreedyScan)
    (q : List Tile × (List (List Tile) × List Tile)) :
    lexLE ((q.1.length : Int), meldRawSum q.1)
      ((greedyScanStep s0 q).maxLen, (greedyScanStep s0 q).maxSum) := by
  unfold greedyScanStep
  by_cases hc : s0.maxLen < (q.1.length : Int) ∨
      ((q.1.length : Int) = s0.maxLen ∧ s0.maxSum < meldRawSum q.1)
  · rw [if_pos hc]
    right
    exact ⟨rfl, le_refl _⟩
  · rw [if_neg hc]
    unfold lexLE
    omega

theorem greedyScanStep_mono (s0 : GreedyScan)
    (q : List Tile × (List (List Tile) × List Tile)) :
    lexLE (s0.maxLen, s0.maxSum)
      ((greedyScanStep s0 q).maxLen, (greedyScanStep s0 q).maxSum) := by
  unfold greedyScanStep
  by_cases hc : s0.maxLen < (q.1.length : Int) ∨
      ((q.1.length : Int) = s0.maxLen ∧ s0.maxSum < meldRawSum q.1)
  · rw [if_pos hc]
    unfold lexLE
    dsimp only
    omega
  · rw [if_neg hc]
    right
    exact ⟨rfl, le_refl _⟩

theorem greedyScan_fold :
    ∀ (l : List (List Tile × (List (List Tile) × List Tile))) (s0 : GreedyScan),
      (∀ p, s0.best = some p →
        (s0.maxLen, s0.maxSum) = ((p.1.length : Int), meldRawSum p.1)) →
      (∀ p, (l.foldl greedyScanStep s0).best = some p →
        ((l.foldl greedyScanStep s0).maxLen, (l.foldl greedyScanStep s0).maxSum) =
          ((p.1.length : Int), meldRawSum p.1)) ∧
      (∀ p ∈ l, lexLE ((p.1.length : Int), meldRawSum p.1)
        ((l.foldl greedyScanStep s0).maxLen, (l.foldl greedyScanStep s0).maxSum)) ∧
      lexLE (s0.maxLen, s0.maxSum)
        ((l.foldl greedyScanStep s0).maxLen, (l.foldl greedyScanStep s0).maxSum) := by
  intro l
  induction l with
  | nil =>
    intro s0 hs0
    exact ⟨hs0, fun p hp => absurd hp (List.not_mem_nil p),
      Or.inr ⟨rfl, le_refl _⟩⟩
  | cons q rest ih =>
    intro s0 hs0
    obtain ⟨ih1, ih2, ih3⟩ := ih (greedyScanStep s0 q) (greedyScanStep_inv s0 q hs0)
    refine ⟨ih1, ?_, lexLE_trans (greedyScanStep_mono s0 q) ih3⟩
    intro p hp
    rcases List.mem_cons.1 hp with rfl | hp
    · exact lexLE_trans (greedyScanStep_le s0 p) ih3
    · exact ih2 p hp

/-- C7 (amended): over every meld embedded in every candidate move, the
Greedy choice maximises `(length, raw value sum)` lexicographically, where
the sum counts only numbered tiles (jokers contribute nothing, they are NOT
joker-resolved); on the claim's concrete hand it selects the four-tile red
run over the group of 5s. -/
theorem C7_greedy_amended :
    (∀ (board : List (List Tile)) (hand : List Tile) moves sel rest,
        get_all_moves board hand = some moves →
        greedy_AI_logic board hand = some (some (sel, rest)) →
        ∀ mv ∈ moves, ∀ g ∈ mv.1,
          lexLE ((g.length : Int), meldRawSum g)
            (((sel.headD []).length : Int), meldRawSum (sel.headD []))) ∧
    greedy_AI_logic [] [rT 5, rT 6, rT 7, rT 8, bT 5, gT 5] =
      some (some ([[rT 5, rT 6, rT 7, rT 8]], [bT 5, gT 5])) := by
  constructor
  · intro board hand moves sel rest hmoves hlogic mv hmv g hg
    unfold greedy_AI_logic at hlogic
    rw [hmoves] at hlogic
    simp only [Option.bind_eq_bind, Option.some_bind] at hlogic
    have hemp : moves ≠ [] := by
      intro h
      rw [if_pos h] at hlogic
      simp at hlogic
    rw [if_neg hemp] at hlogic
    obtain ⟨inv, bound, -⟩ := greedyScan_fold (greedyPairs moves) ⟨-1, -1, none⟩
      (fun p hp => by cases hp)
    cases hbest : ((greedyPairs moves).foldl greedyScanStep ⟨-1, -1, none⟩).best with
    | none =>
      rw [hbest] at hlogic
      simp at hlogic
    | some p =>
      rw [hbest] at hlogic
      simp only [pure, Option.some.injEq, Prod.mk.injEq] at hlogic
      obtain ⟨hsel, -⟩ := hlogic
      have hpair := inv p hbest
      have hmem : (g, mv) ∈ greedyPairs moves :=
        List.mem_flatMap.2 ⟨mv, hmv, List.mem_map.2 ⟨g, hg, rfl⟩⟩
      have hle := bound (g, mv) hmem
      rw [hpair] at hle
      rw [← hsel]
      exact hle
  · decide

/-- C7 counterexample: with a jokered run on the board, the claim's
joker-resolved ordering ranks the board meld r4-r5-joker (length 3,
resolved value 15) above the blue run (length 3, raw value 12), but the
Greedy scan sums only numbered tiles (9 versus 12) and selects the blue
run. -/
theorem C7_counterexample :
    get_all_moves [[rT 4, rT 5, purpleJ]] [bT 3, bT 4, bT 5] =
      some [([[rT 4, rT 5, purpleJ], [bT 3, bT 4, bT 5]], [])] ∧
    greedy_AI_logic [[rT 4, rT 5, purpleJ]] [bT 3, bT 4, bT 5] =
      some (some ([[bT 3, bT 4, bT 5]], [])) ∧
    calculate_points [rT 4, rT 5, purpleJ] = some 15 ∧
    calculate_points [bT 3, bT 4, bT 5] = some 12 ∧
    ([rT 4, rT 5, purpleJ] : List Tile).length = 3 ∧
    ([bT 3, bT 4, bT 5] : List Tile).length = 3 := by decide

/-- C7 witness: the amended maximality theorem applied at the claim's
concrete hand, comparing the group of 5s against the selected red run. -/
theorem C7_greedy_amended_witness :
    lexLE ((([rT 5, bT 5, gT 5] : List Tile).length : Int),
        meldRawSum [rT 5, bT 5, gT 5])
      ((([rT 5, rT 6, rT 7, rT 8] : List Tile).length : Int),
        meldRawSum [rT 5, rT 6, rT 7, rT 8]) := by
  have h := C7_greedy_amended.1 [] [rT 5, rT 6, rT 7, rT 8, bT 5, gT 5]
    [([[rT 5, rT 6, rT 7, rT 8]], [bT 5, gT 5]),
     ([[rT 5, bT 5, gT 5]], [rT 6, rT 7, rT 8])]
    [[rT 5, rT 6, rT 7, rT 8]] [bT 5, gT 5] (by decide) (by decide)
  exact h ([[rT 5, bT 5, gT 5]], [rT 6, rT 7, rT 8]) (by decide)
    [rT 5, bT 5, gT 5] (by decide)

/-- C3: the 106-tile pool is created as claimed, but tile conservation is
violated by the initial-meld branch of `play_turn` itself: on a hand whose
greedy packing finds two melds (here the groups of 9s and of 5s, 27 + 15 =
42 points), both melds are appended to the board while only the first
meld's three tiles leave the hand, so 6 tiles become 9. -/
theorem C3_conservation_violated :
    create_tile_pool.length = 106 ∧
    play_turn_no_meld [] [rT 9, bT 9, gT 9, rT 5, bT 5, gT 5] =
      some ([[rT 9, bT 9, gT 9], [rT 5, bT 5, gT 5]], [rT 5, bT 5, gT 5]) ∧
    boardTileCount [[rT 9, bT 9, gT 9], [rT 5, bT 5, gT 5]] +
      ([rT 5, bT 5, gT 5] : List Tile).length = 9 ∧
    boardTileCount ([] : List (List Tile)) +
      ([rT 9, bT 9, gT 9, rT 5, bT 5, gT 5] : List Tile).length = 6 := by decide

/-! ### C8: the MCTS final move choice -/

theorem pyMax_foldl_ge {α : Type} (f : α → ℝ) :
    ∀ (l : List α) (a : α),
      f a ≤ f (l.foldl (fun best x => if f best < f x then x else best) a) ∧
      ∀ x ∈ l, f x ≤ f (l.foldl (fun best x => if f best < f x then x else best) a) := by
  intro l
  induction l with
  | nil =>
    intro a
    exact ⟨le_refl _, fun x hx => absurd hx (List.not_mem_nil x)⟩
  | cons b rest ih =>
    intro a
    rw [List.foldl_cons]
    by_cases hc : f a < f b
    · rw [if_pos hc]
      obtain ⟨h1, h2⟩ := ih b
      refine ⟨le_trans hc.le h1, ?_⟩
      intro x hx
      rcases List.mem_cons.1 hx with rfl | hx
      · exact h1
      · exact h2 x hx
    · rw [if_neg hc]
      obtain ⟨h1, h2⟩ := ih a
      push_neg at hc
      refine ⟨h1, ?_⟩
      intro x hx
      rcases List.mem_cons.1 hx with rfl | hx
      · exact le_trans hc h1
      · exact h2 x hx

/-- C8 (amended): `AI_logic` does invoke `best_child` with exploration
constant 0, but `best_child` overrides the constant by hand size; only for
root hand sizes 4..9 does the returned child maximise the pure average
`value / visits`. -/
theorem C8_mcts_amended (player_tiles : List Tile) (visits : Nat)
    (children : List MChild) (best : MChild)
    (h4 : 4 ≤ player_tiles.length) (h9 : player_tiles.length ≤ 9)
    (hv : ∀ ch ∈ children, 0 < ch.visits)
    (hbest : mcts_final_choice player_tiles visits children = some best) :
    ∀ ch ∈ children, ch.value / ch.visits ≤ best.value / best.visits := by
  unfold mcts_final_choice best_child at hbest
  rw [if_neg (by omega), if_neg (by omega)] at hbest
  have hscore : ∀ ch, ucbScore visits 0 ch = ch.value / ch.visits := by
    intro ch
    unfold ucbScore
    ring
  cases children with
  | nil => cases hbest
  | cons a rest =>
    unfold pyMax at hbest
    simp only [Option.some.injEq] at hbest
    obtain ⟨hga, hgmem⟩ := pyMax_foldl_ge (ucbScore visits 0) rest a
    intro ch hch
    rw [← hscore ch, ← hscore best, ← hbest]
    rcases List.mem_cons.1 hch with rfl | hch
    · exact hga
    · exact hgmem ch hch

/-- C8 counterexample: with a 3-tile hand the exploration constant passed
as 0 is overridden to 0.5, and the final choice returns the child with
average 1 and one visit over the child with average 1.001 and four visits —
not the maximiser of `value / visits`. -/
theorem C8_counterexample :
    mcts_final_choice [rT 1, rT 2, rT 4] 5 [⟨1001 / 250, 4⟩, ⟨1, 1⟩] =
      some ⟨1, 1⟩ ∧
    (⟨1001 / 250, 4⟩ : MChild) ∈ ([⟨1001 / 250, 4⟩, ⟨1, 1⟩] : List MChild) ∧
    (⟨1, 1⟩ : MChild).value / (⟨1, 1⟩ : MChild).visits <
      (⟨1001 / 250, 4⟩ : MChild).value / (⟨1001 / 250, 4⟩ : MChild).visits := by
  have hL1 : (1 : ℝ) ≤ Real.log 5 := by
    rw [Real.le_log_iff_exp_le (by norm_num)]
    calc Real.exp 1 ≤ 2.7182818286 := Real.exp_one_lt_d9.le
      _ ≤ 5 := by norm_num
  have hL2 : Real.log 5 ≤ 2 := by
    rw [Real.log_le_iff_le_exp (by norm_num)]
    have h27 : (2.7 : ℝ) ≤ Real.exp 1 :=
      le_trans (by norm_num) Real.exp_one_gt_d9.le
    have hexp2 : Real.exp 2 = Real.exp 1 * Real.exp 1 := by
      rw [← Real.exp_add]
      norm_num
    rw [hexp2]
    calc (5 : ℝ) ≤ 2.7 * 2.7 := by norm_num
      _ ≤ Real.exp 1 * Real.exp 1 :=
        mul_le_mul h27 h27 (by norm_num) (Real.exp_pos 1).le
  have hs1 : ucbScore 5 (0.5 : ℝ) ⟨1001 / 250, 4⟩ < ucbScore 5 (0.5 : ℝ) ⟨1, 1⟩ := by
    unfold ucbScore
    dsimp only
    push_cast
    have e1 : (2 * Real.log 5 / 4 : ℝ) = Real.log 5 / 2 := by ring
    have e2 : (2 * Real.log 5 / 1 : ℝ) = 2 * Real.log 5 := by ring
    rw [e1, e2]
    have h2a : Real.sqrt (Real.log 5 / 2) ≤ 1 := by
      rw [show (1 : ℝ) = Real.sqrt 1 from Real.sqrt_one.symm]
      exact Real.sqrt_le_sqrt (by linarith)
    have h2b : (1.4 : ℝ) ≤ Real.sqrt (2 * Real.log 5) := by
      have h14 : (1.4 : ℝ) ≤ Real.sqrt 2 :=
        (Real.le_sqrt (by norm_num) (by norm_num)).2 (by norm_num)
      exact le_trans h14 (Real.sqrt_le_sqrt (by linarith))
    nlinarith [Real.sqrt_nonneg (Real.log 5 / 2), Real.sqrt_nonneg (2 * Real.log 5)]
  refine ⟨?_, List.mem_cons_self _ _, ?_⟩
  · unfold mcts_final_choice best_child
    rw [if_pos (by norm_num : ([rT 1, rT 2, rT 4] : List Tile).length ≤ 3)]
    unfold pyMax
    dsimp only
    rw [List.foldl_cons, List.foldl_nil, if_pos hs1]
  · dsimp only
    norm_num

/-- C8 witness: the amended theorem at a 5-tile hand with children of
averages 1 and 1.5; the returned child has the larger average. -/
theorem C8_mcts_amended_witness :
    (⟨1, 1⟩ : MChild).value / (⟨1, 1⟩ : MChild).visits ≤
      (⟨3, 2⟩ : MChild).value / (⟨3, 2⟩ : MChild).visits := by
  have hbest : mcts_final_choice [rT 1, rT 2, rT 3, rT 5, rT 7] 7
      [⟨1, 1⟩, ⟨3, 2⟩] = some ⟨3, 2⟩ := by
    unfold mcts_final_choice best_child
    rw [if_neg (by norm_num), if_neg (by norm_num)]
    unfold pyMax
    dsimp only
    rw [List.foldl_cons, List.foldl_nil, if_pos ?_]
    unfold ucbScore
    dsimp only
    push_cast
    have hz : ∀ x : ℝ, (0 : ℝ) * x = 0 := fun x => zero_mul x
    rw [hz, hz]
    norm_num
  have h := C8_mcts_amended [rT 1, rT 2, rT 3, rT 5, rT 7] 7
    [⟨1, 1⟩, ⟨3, 2⟩] ⟨3, 2⟩ (by norm_num) (by norm_num)
    (by
      intro ch hch
      rcases List.mem_cons.1 hch with rfl | hch
      · norm_num
      · rcases List.mem_cons.1 hch with rfl | hch
        · norm_num
        · cases hch)
    hbest
  exact h ⟨1, 1⟩ (List.mem_cons_self _ _)

/-! ### C9: the MCTS rollout mutates the live game manager -/

/-- C9: constructing a rollout `Simulator` does not operate on an isolated
copy — `prepare_simulator` aliases and rewrites the live manager: after it
runs, the real manager's players, current_player_idx, players_tiles and
board_tiles all differ from their pre-rollout values. -/
theorem C9_simulator_mutates_manager :
    (prepare_simulator gm0 [[rT 3, rT 4, rT 5]] [gT 7]).players ≠ gm0.players ∧
    (prepare_simulator gm0 [[rT 3, rT 4, rT 5]] [gT 7]).current_player_idx ≠
      gm0.current_player_idx ∧
    (prepare_simulator gm0 [[rT 3, rT 4, rT 5]] [gT 7]).players_tiles ≠
      gm0.players_tiles ∧
    (prepare_simulator gm0 [[rT 3, rT 4, rT 5]] [gT 7]).board_tiles ≠
      gm0.board_tiles := by decide

/-! ### C10: get_move's consistency checking -/

/-- C10 counterexample: a state-pair move whose new board references tiles
in nobody's hand is installed silently — `get_move` reports success instead
of failing loudly. -/
theorem C10_counterexample :
    get_move (PyMove.statePair [[bT 1, bT 2, bT 3]] [rT 5]) []
      [rT 5, rT 6, rT 7] = Except.ok (true, [[bT 1, bT 2, bT 3]], [rT 5]) ∧
    bT 1 ∉ ([rT 5, rT 6, rT 7] : List Tile) := ⟨rfl, by decide⟩

/-- C10 (amended): only the one-element-list shape is checked — it raises
ValueError exactly when the tile is missing from the hand and no joker
substitution is possible; `None` moves report no move; state-pair moves are
installed wholesale with no consistency check and never raise. -/
theorem C10_get_move_amended (board : List (List Tile)) (hand : List Tile) :
    (∀ b h, get_move (PyMove.statePair b h) board hand = Except.ok (true, b, h)) ∧
    (∀ t, (∃ e, get_move (PyMove.singleTile t) board hand = Except.error e) ↔
      (t ∉ hand ∧ (t.color = Color.joker → jokerT ∉ hand))) ∧
    get_move PyMove.noMove board hand = Except.ok (false, board, hand) := by
  refine ⟨fun b h => rfl, ?_, rfl⟩
  intro t
  unfold get_move
  dsimp only
  by_cases h1 : t ∈ hand
  · rw [if_pos h1]
    constructor
    · rintro ⟨e, he⟩; cases he
    · rintro ⟨h2, -⟩; exact absurd h1 h2
  · rw [if_neg h1]
    by_cases h2 : t.color = Color.joker
    · rw [if_pos h2]
      by_cases h3 : jokerT ∈ hand
      · rw [if_pos h3]
        constructor
        · rintro ⟨e, he⟩; cases he
        · rintro ⟨-, h4⟩; exact absurd h3 (h4 h2)
      · rw [if_neg h3]
        constructor
        · intro _; exact ⟨h1, fun _ => h3⟩
        · intro _; exact ⟨PyErr.valueError, rfl⟩
    · rw [if_neg h2]
      constructor
      · intro _; exact ⟨h1, fun hc => absurd hc h2⟩
      · intro _; exact ⟨PyErr.valueError, rfl⟩

end Rummikub
